import Mathlib

/-
Verification development for the vault-mcp core (plugins/vault-mcp/src):
task parser/serializer, tag formatting, id generation, effort scanner and
the vault cache.  Each Python function is shallowly embedded as an
executable Lean definition; theorems at the end of the file settle the
frozen claims about the specification.

Conventions of the embedding:
- Python strings are Lean String / List Char (one Char per Unicode code
  point, matching Python's code-point indexing).
- Python dicts (which preserve insertion order) are association lists
  with update-in-place / append-at-end semantics (dictInsert, dictPop,
  dictSetDefault below).
- Python re character classes are modelled over their ASCII range
  (the vocabulary of tags, markers and dates in the repository is ASCII).
- Filesystem paths are lists of path segments.
- Randomness (secrets.token_hex) is an oracle stream gen : Nat -> String
  together with a fuel bound for generate-and-check loops; a loop that
  would not terminate is modelled by the fuel running out (Option none).
- Wall-clock values (st_mtime, date.today) are oracle inputs: mtimes are
  Nat values produced by a monotone disk clock, today is a String input.
-/

namespace VaultMCP

/-! ## Python dict as an insertion-ordered association list -/

/-- Python dict lookup: value of the (unique) entry with the given key. -/
def dictGet {κ α : Type} [DecidableEq κ] : List (κ × α) → κ → Option α
  | [], _ => none
  | (k', v) :: rest, k => if k' = k then some v else dictGet rest k

/-- Python dict assignment d[k] = v: replaces the value in place if the key
is present, otherwise appends the new pair at the end. -/
def dictInsert {κ α : Type} [DecidableEq κ] : List (κ × α) → κ → α → List (κ × α)
  | [], k, v => [(k, v)]
  | (k', v') :: rest, k, v =>
    if k' = k then (k', v) :: rest else (k', v') :: dictInsert rest k v

/-- Python dict.pop(k, None): removes the entry with the given key. -/
def dictPop {κ α : Type} [DecidableEq κ] : List (κ × α) → κ → List (κ × α)
  | [], _ => []
  | (k', v') :: rest, k => if k' = k then rest else (k', v') :: dictPop rest k

/-- Python dict.setdefault(k, v). -/
def dictSetDefault {κ α : Type} [DecidableEq κ] (d : List (κ × α)) (k : κ) (v : α) :
    List (κ × α) :=
  match dictGet d k with
  | some _ => d
  | none => d ++ [(k, v)]

/-- Python list(dict.keys()). -/
def dictKeys {κ α : Type} (d : List (κ × α)) : List κ := d.map Prod.fst

/-! ## utils/formatting.py -/

/-- TAG_TO_EMOJI from utils/formatting.py (insertion order preserved). -/
def TAG_TO_EMOJI : List (String × String) :=
  [("id", "🆔"), ("due", "📅"), ("scheduled", "⏳"),
   ("created", "➕"), ("completed", "✅"), ("b", "⛔")]

/-- EMOJI_TO_TAG = {v: k for k, v in TAG_TO_EMOJI.items()}. -/
def EMOJI_TO_TAG : List (String × String) := TAG_TO_EMOJI.map (fun p => (p.2, p.1))

/-- render_tag from utils/formatting.py. -/
def render_tag (name value : String) : String :=
  match dictGet TAG_TO_EMOJI name with
  | some emoji => emoji ++ " " ++ value
  | none => if value ≠ "" then "#" ++ name ++ ":" ++ value else "#" ++ name

/-- render_tags from utils/formatting.py: a space-join of the rendered tags
in the order in which the dict holds them. -/
def render_tags (tags : List (String × String)) : String :=
  String.intercalate " " (tags.map (fun p => render_tag p.1 p.2))

/-! ## split_tags (parsers/task_parser.py) and its regex machinery

The Python pattern (writing CLS for the class of word chars, slash, dash) is
  (?:#(CLS+):|(<emoji alternation>)\s+)(\S+)|#(CLS+)
searched with re.finditer (leftmost, non-overlapping) after wiki-links
[[...]] have been masked by equal-length runs of spaces. -/

/-- Python \w, modelled over the ASCII range. -/
def pyWordChar (c : Char) : Bool := c.isAlphanum || c = '_'

/-- The regex character class of word chars, slash and dash (CLS above). -/
def tagNameChar (c : Char) : Bool := pyWordChar c || c = '/' || c = '-'

/-- Python \s (ASCII range: space, tab, newline, CR, vertical tab, form feed). -/
def pyWs (c : Char) : Bool :=
  c = ' ' || c = '\t' || c = '\n' || c = '\r' || c = '\x0b' || c = '\x0c'

/-- Python str.strip() on a character list. -/
def pstripped (s : List Char) : List Char :=
  ((s.dropWhile pyWs).reverse.dropWhile pyWs).reverse

/-- Python str.strip() returning a String. -/
def pstrip (s : List Char) : String := String.mk (pstripped s)

/-- The emoji alternation of the tag pattern: which tag key a marker
character stands for (EMOJI_TO_TAG; every marker is one code point). -/
def emojiTag (c : Char) : Option String :=
  if c = '🆔' then some "id"
  else if c = '📅' then some "due"
  else if c = '⏳' then some "scheduled"
  else if c = '➕' then some "created"
  else if c = '✅' then some "completed"
  else if c = '⛔' then some "b"
  else none

/-- Index of the first "]]" in a character list (the non-greedy target of
the wiki-link pattern \[\[.*?\]\]). -/
def findCloseIdx : List Char → Option Nat
  | ']' :: ']' :: _ => some 0
  | _ :: rest => (findCloseIdx rest).map (· + 1)
  | [] => none

/-- One pass of re.sub(r"\[\[.*?\]\]", blanks-of-equal-length, text).
Fuel-structural recursion: every step consumes at least one character, so
fuel = length of the text is always sufficient. -/
def maskWikiAux : Nat → List Char → List Char
  | 0, s => s
  | fuel + 1, '[' :: '[' :: rest =>
    (match findCloseIdx rest with
     | some j => List.replicate (j + 4) ' ' ++ maskWikiAux fuel (rest.drop (j + 2))
     | none => '[' :: maskWikiAux fuel ('[' :: rest))
  | fuel + 1, c :: rest => c :: maskWikiAux fuel rest
  | _ + 1, [] => []

/-- Wiki-link masking of split_tags: [[...]] spans become equal-length runs
of spaces so offsets are preserved. -/
def maskWiki (s : List Char) : List Char := maskWikiAux s.length s

/-- Attempt to match the tag pattern at the head of the text.  Returns
(number of characters consumed beyond the first one, tag key, tag value).
The ordered alternation of the Python pattern is mirrored exactly:
first #name:value, then marker-space-value, then bare #name; the character
classes exclude their terminators, so the greedy runs need no backtracking. -/
def tryMatch : List Char → Option (Nat × String × String)
  | [] => none
  | '#' :: rest =>
    let k := rest.takeWhile tagNameChar
    if k.isEmpty then none
    else
      (match rest.drop k.length with
       | ':' :: rest2 =>
         let v := rest2.takeWhile (fun c => !(pyWs c))
         if v.isEmpty then some (k.length, String.mk k, "")
         else some (k.length + 1 + v.length, String.mk k, String.mk v)
       | _ => some (k.length, String.mk k, ""))
  | c :: rest =>
    match emojiTag c with
    | some key =>
      let w := rest.takeWhile pyWs
      if w.isEmpty then none
      else
        let v := (rest.drop w.length).takeWhile (fun c => !(pyWs c))
        if v.isEmpty then none
        else some (w.length + v.length, key, String.mk v)
    | none => none

/-- re.finditer over the masked text: leftmost, non-overlapping matches with
their start positions.  Fuel-structural: every step consumes at least one
character, so fuel = length of the text is always sufficient. -/
def scanTagsAux : Nat → List Char → Nat → List (Nat × String × String)
  | 0, _, _ => []
  | _ + 1, [], _ => []
  | fuel + 1, c :: rest, pos =>
    match tryMatch (c :: rest) with
    | some (extra, k, v) => (pos, k, v) :: scanTagsAux fuel (rest.drop extra) (pos + 1 + extra)
    | none => scanTagsAux fuel rest (pos + 1)

/-- All tag matches of a (masked) text with their positions. -/
def scanTags (s : List Char) : List (Nat × String × String) := scanTagsAux s.length s 0

/-- split_tags from parsers/task_parser.py: mask wiki-links, scan for tag
matches, build the tag dict in match order, and cut the title at the
earliest match position (of the original, unmasked text). -/
def split_tags (text : List Char) : String × List (String × String) :=
  let masked := maskWiki text
  let ms := scanTags masked
  let tags := ms.foldl (fun d m => dictInsert d m.2.1 m.2.2) []
  let earliest := ms.foldl (fun e m => min e m.1) text.length
  (pstrip (text.take earliest), tags)

/-! ## models/task.py -/

/-- A filesystem path as a list of segments. -/
abbrev Path := List String

/-- Task from models/task.py.  The dataclass field named "section" is called
sectionName here (section is a Lean keyword); file_path is omitted: it is
never set by the parser or the cache paths modelled here.  Recursive, so an
inductive rather than a structure. -/
inductive Task where
  | mk (title : String) (id : Option String) (status : String)
       (tags : List (String × String)) (notes : List String) (children : List Task)
       (indentLevel : Nat) (lineNumber : Nat) (sectionName : Option String)
       (sectionLevel : Nat)

def Task.title : Task → String
  | .mk x _ _ _ _ _ _ _ _ _ => x

def Task.id : Task → Option String
  | .mk _ x _ _ _ _ _ _ _ _ => x

def Task.status : Task → String
  | .mk _ _ x _ _ _ _ _ _ _ => x

def Task.tags : Task → List (String × String)
  | .mk _ _ _ x _ _ _ _ _ _ => x

def Task.notes : Task → List String
  | .mk _ _ _ _ x _ _ _ _ _ => x

def Task.children : Task → List Task
  | .mk _ _ _ _ _ x _ _ _ _ => x

def Task.indentLevel : Task → Nat
  | .mk _ _ _ _ _ _ x _ _ _ => x

def Task.lineNumber : Task → Nat
  | .mk _ _ _ _ _ _ _ x _ _ => x

def Task.sectionName : Task → Option String
  | .mk _ _ _ _ _ _ _ _ x _ => x

def Task.sectionLevel : Task → Nat
  | .mk _ _ _ _ _ _ _ _ _ x => x

/-- Task.is_stub: "stub" in self.tags. -/
def Task.is_stub (t : Task) : Bool := (dictGet t.tags "stub").isSome

/-- Task.is_blocked: "blocked" in self.tags. -/
def Task.is_blocked (t : Task) : Bool := (dictGet t.tags "blocked").isSome

mutual

/-- Task.all_tasks: the task followed by all descendants, preorder. -/
def Task.all_tasks : Task → List Task
  | .mk a b c d e children f g h i =>
    .mk a b c d e children f g h i :: forest_all_tasks children

/-- all_tasks extended over a list of sibling tasks. -/
def forest_all_tasks : List Task → List Task
  | [] => []
  | t :: ts => t.all_tasks ++ forest_all_tasks ts

end

/-- SectionBlock from models/task.py. -/
structure SectionBlock where
  heading : String
  level : Nat
  tasks : List Task

/-- TaskTree from models/task.py. -/
structure TaskTree where
  filePath : Path
  sections : List SectionBlock
  frontmatterLines : List String

/-- TaskTree.all_tasks: all tasks across all sections, flat, preorder. -/
def TaskTree.all_tasks (t : TaskTree) : List Task :=
  t.sections.flatMap (fun s => forest_all_tasks s.tasks)

/-- TaskTree.find_by_id: first task (preorder) with the given id. -/
def TaskTree.find_by_id (t : TaskTree) (tid : String) : Option Task :=
  t.all_tasks.find? (fun x => x.id == some tid)

/-- TaskTree.find_section: first section with the given heading. -/
def TaskTree.find_section (t : TaskTree) (heading : String) : Option SectionBlock :=
  t.sections.find? (fun s => s.heading == heading)

/-- CachedFile from models/task.py (mtime is a Nat tick of the disk clock). -/
structure CachedFile where
  filePath : Path
  tree : TaskTree
  mtime : Nat

/-! ## parsers/task_parser.py — parsing

Python builds the tree by mutating Task objects that are already shared
between the section lists, the task stack and current_task.  The embedding
uses an arena: tasks live in an append-only list, the stack and the section
root lists hold indices, and the TaskTree is materialized at the end.
A child is always appended after its parent, so child indices are strictly
larger than their parent's index. -/

/-- File names recognised as TASKS files. -/
def TASK_FILE_NAMES : List String := ["TASKS.md", "01 TASKS.md"]

/-- parse_checkbox: checkbox char, stripped and lowered, to status. -/
def parse_checkbox (c : Char) : String :=
  if pyWs c then "open"
  else if c.toLower = 'x' then "done"
  else if c.toLower = '/' then "in-progress"
  else "open"

/-- indent_level: tabs count 4 columns, anything else 1; divide by 4. -/
def indent_level (indentStr : List Char) : Nat :=
  (indentStr.foldl (fun a c => a + if c = '\t' then 4 else 1) 0) / 4

/-- parse_task_line: the regex anchored match
"leading whitespace, dash space bracket, any char, bracket space, nonempty rest".
Returns (indent level, status, content). -/
def parse_task_line (line : List Char) : Option (Nat × String × List Char) :=
  let indent := line.takeWhile pyWs
  match line.drop indent.length with
  | '-' :: ' ' :: '[' :: c :: ']' :: ' ' :: content =>
    if content.isEmpty then none
    else some (indent_level indent, parse_checkbox c, content)
  | _ => none

/-- parse_heading on an already-stripped line: leading run of # then text. -/
def parse_heading (stripped : List Char) : Option (Nat × String) :=
  match stripped with
  | '#' :: _ =>
    let level := (stripped.takeWhile (fun c => c = '#')).length
    some (level, pstrip (stripped.drop level))
  | _ => none

/-- Boolean prefix test on character lists (python str.startswith). -/
def charsStartWith : List Char → List Char → Bool
  | [], _ => true
  | _ :: _, [] => false
  | p :: ps, c :: cs => p = c && charsStartWith ps cs

/-- Python str.splitlines restricted to newline separators (the only
separator the serializer emits). -/
def splitNl : List Char → List (List Char)
  | [] => [[]]
  | '\n' :: rest => [] :: splitNl rest
  | c :: rest =>
    match splitNl rest with
    | [] => [[c]]
    | l :: ls => (c :: l) :: ls

/-- Python str.splitlines (no trailing empty line after a final newline). -/
def pySplitlines (s : List Char) : List (List Char) :=
  if s.isEmpty then []
  else if s.getLast? = some '\n' then (splitNl s).dropLast else splitNl s

/-- Blank line test: strip() is empty. -/
def isBlankLine (l : List Char) : Bool := (pstripped l).isEmpty

/-- Does the line strip to the frontmatter delimiter three dashes. -/
def isDashes (l : List Char) : Bool := pstripped l == ['-', '-', '-']

/-- Number of leading blank lines. -/
def dropBlankCount : List (List Char) → Nat
  | [] => 0
  | l :: rest => if isBlankLine l then dropBlankCount rest + 1 else 0

/-- Scan for the closing frontmatter delimiter; returns the collected lines
(including the closing delimiter) and how many lines were consumed. -/
def fmScan : List (List Char) → Option (List (List Char) × Nat)
  | [] => none
  | l :: rest =>
    if isDashes l then some ([l], 1)
    else (fmScan rest).map (fun p => (l :: p.1, p.2 + 1))

/-- extract_frontmatter: returns (frontmatter lines verbatim, body start). -/
def extract_frontmatter (lines : List (List Char)) : List (List Char) × Nat :=
  let i := dropBlankCount lines
  match lines.drop i with
  | [] => ([], 0)
  | l :: rest =>
    if isDashes l then
      match fmScan rest with
      | some (fm, n) => (l :: fm, i + 1 + n)
      | none => ([], 0)
    else ([], 0)

/-- Arena node: a Task whose children are arena indices. -/
structure PTask where
  title : String
  id : Option String
  status : String
  tags : List (String × String)
  indentLevel : Nat
  lineNumber : Nat
  sectionName : Option String
  sectionLevel : Nat
  notes : List String
  children : List Nat

/-- Arena node placeholder (never reached on indices created by the parser). -/
def defaultPTask : PTask :=
  ⟨"", none, "open", [], 0, 0, none, 0, [], []⟩

/-- SectionBlock under construction: root tasks as arena indices. -/
structure PSection where
  heading : String
  level : Nat
  roots : List Nat

/-- Parser state: arena, sections in file order, the stack of open tasks
(head = top of stack) and current_task, all as arena indices. -/
structure PState where
  arena : List PTask
  sections : List PSection
  stack : List Nat
  current : Option Nat

/-- In-place update of a list element (python mutation of a shared object). -/
def listModify {α : Type} : List α → Nat → (α → α) → List α
  | [], _, _ => []
  | x :: xs, 0, f => f x :: xs
  | x :: xs, i + 1, f => x :: listModify xs i f

/-- Pop stack entries whose indent level is ≥ the new task's level. -/
def popStack (arena : List PTask) (lvl : Nat) : List Nat → List Nat
  | [] => []
  | i :: rest =>
    if lvl ≤ (arena.getD i defaultPTask).indentLevel then popStack arena lvl rest
    else i :: rest

/-- The stripped note text: drop the bullet marker and surrounding space. -/
def noteText (stripped : List Char) : String :=
  if charsStartWith ['-', ' '] stripped then String.mk (stripped.drop 2)
  else String.mk ((stripped.drop 1).dropWhile pyWs)

/-- One iteration of the parse loop of parse_content over a single line. -/
def processLine (st : PState) (lineNum : Nat) (line : List Char) : PState :=
  let stripped := pstripped line
  if stripped.isEmpty then st
  else
    match parse_heading stripped with
    | some (level, text) =>
      { st with sections := st.sections ++ [⟨text, level, []⟩], stack := [], current := none }
    | none =>
      if charsStartWith ['-', ' ', '['] stripped &&
          !(charsStartWith ['-', ' ', '[', '['] stripped) then
        match parse_task_line line with
        | none => st
        | some (ilvl, status, content) =>
          let ts := split_tags content
          let curSec := st.sections.getLast?
          let pt : PTask :=
            { title := ts.1, id := dictGet ts.2 "id", status := status, tags := ts.2,
              indentLevel := ilvl, lineNumber := lineNum,
              sectionName := curSec.map (·.heading),
              sectionLevel := (curSec.map (·.level)).getD 0,
              notes := [], children := [] }
          let newIdx := st.arena.length
          let arena1 := st.arena ++ [pt]
          let stack1 := popStack arena1 ilvl st.stack
          match stack1 with
          | parentIdx :: _ =>
            let arena2 := listModify arena1 parentIdx
              (fun p => { p with children := p.children ++ [newIdx] })
            { arena := arena2, sections := st.sections, stack := newIdx :: stack1,
              current := some newIdx }
          | [] =>
            let sections1 := if st.sections.isEmpty then [⟨"", 0, []⟩] else st.sections
            let sections2 := listModify sections1 (sections1.length - 1)
              (fun s => { s with roots := s.roots ++ [newIdx] })
            { arena := arena1, sections := sections2, stack := [newIdx],
              current := some newIdx }
      else
        match st.current with
        | some curIdx =>
          if charsStartWith ['-'] stripped then
            let indentStr := line.takeWhile (fun c => c ≠ '-')
            if (st.arena.getD curIdx defaultPTask).indentLevel < indent_level indentStr then
              let arena2 := listModify st.arena curIdx
                (fun p => { p with notes := p.notes ++ [noteText stripped] })
              { st with arena := arena2 }
            else st
          else st
        | none => st

/-- The parse loop over the body lines, with absolute line numbers. -/
def processLines : PState → Nat → List (List Char) → PState
  | st, _, [] => st
  | st, n, l :: rest => processLines (processLine st n l) (n + 1) rest

/-- Materialize an arena index into a Task.  Children always have strictly
larger indices than their parent, so fuel = arena size bounds the depth. -/
def buildTask (arena : List PTask) : Nat → Nat → Task
  | 0, _ => Task.mk "" none "open" [] [] [] 0 0 none 0
  | fuel + 1, i =>
    let p := arena.getD i defaultPTask
    Task.mk p.title p.id p.status p.tags p.notes
      (p.children.map (buildTask arena fuel)) p.indentLevel p.lineNumber
      p.sectionName p.sectionLevel

/-- parse_content from parsers/task_parser.py. -/
def parse_content (content : String) (filePath : Path) : TaskTree :=
  let lines := pySplitlines content.data
  let fmb := extract_frontmatter lines
  let stF := processLines ⟨[], [], [], none⟩ fmb.2 (lines.drop fmb.2)
  let fuel := stF.arena.length
  { filePath := filePath,
    sections := stF.sections.map
      (fun s => ⟨s.heading, s.level, s.roots.map (buildTask stF.arena fuel)⟩),
    frontmatterLines := fmb.1.map String.mk }

/-! ## parsers/task_parser.py — serialization -/

mutual

/-- serialize_task: one task and its notes and children as markdown lines. -/
def serialize_task : Task → Nat → List String
  | .mk title _ status tags notes children _ _ _ _, lvl =>
    let indent := String.mk (List.replicate (4 * lvl) ' ')
    let checkbox :=
      if status == "done" then "[x]"
      else if status == "in-progress" then "[/]" else "[ ]"
    let tagStr := render_tags tags
    let taskLine :=
      if tagStr ≠ "" then indent ++ "- " ++ checkbox ++ " " ++ title ++ " " ++ tagStr
      else indent ++ "- " ++ checkbox ++ " " ++ title
    let noteIndent := String.mk (List.replicate (4 * (lvl + 1)) ' ')
    taskLine :: (notes.map (fun n => noteIndent ++ "- " ++ n) ++
      serialize_forest children (lvl + 1))

/-- serialize_task over a list of sibling tasks. -/
def serialize_forest : List Task → Nat → List String
  | [], _ => []
  | t :: ts, lvl => serialize_task t lvl ++ serialize_forest ts lvl

end

/-- write_file from parsers/task_parser.py, as the content string it writes:
frontmatter verbatim, then per section (when the heading is non-empty) a
blank line, the heading line and a blank line, then the root tasks. -/
def write_file (tree : TaskTree) : String :=
  let sectionLines := tree.sections.flatMap (fun s =>
    (if s.heading ≠ "" then
      ["", String.mk (List.replicate s.level '#') ++ " " ++ s.heading, ""]
     else []) ++ serialize_forest s.tasks 0)
  String.intercalate "\n" (tree.frontmatterLines ++ sectionLines)

/-! ## utils/ids.py

generate_task_id draws 6 random hex characters via secrets.token_hex.
The randomness is modelled as an oracle stream gen : Nat -> String consumed
at increasing indices.  The generate-and-check loops of vault_cache.py
("while new_id in existing_ids: new_id = generate_task_id()") are embedded
fuel-bounded: none means the loop has not produced a fresh id within the
given number of draws (the Python loop has no bound of its own). -/

/-- The generate-and-check loop: draw gen i, retry while the id is known.
Returns the fresh id and the next oracle index. -/
def drawFresh (gen : Nat → String) (known : String → Bool) : Nat → Nat → Option (String × Nat)
  | 0, _ => none
  | fuel + 1, i => if known (gen i) then drawFresh gen known fuel (i + 1) else some (gen i, i + 1)

/-! ## parsers/effort_scanner.py -/

/-- A directory tree: name, names of plain files inside, subdirectories.
(iterdir yields files too; every branch of the scanner ignores non-directory
entries, so only the file-name list matters for them.) -/
inductive Dir where
  | mk (name : String) (files : List String) (children : List Dir)

def Dir.name : Dir → String
  | .mk x _ _ => x

def Dir.files : Dir → List String
  | .mk _ x _ => x

def Dir.children : Dir → List Dir
  | .mk _ _ x => x

/-- EffortStatus from models/effort.py. -/
inductive EffortStatus where
  | active
  | backlog
deriving DecidableEq

/-- Effort from models/effort.py. -/
structure Effort where
  name : String
  path : Path
  status : EffortStatus
  isFocused : Bool
  tasksFile : Option Path
deriving DecidableEq

/-- Python string comparison (code point lexicographic) on char lists. -/
def charListLe : List Char → List Char → Bool
  | [], _ => true
  | _ :: _, [] => false
  | a :: as, b :: bs => if a = b then charListLe as bs else decide (a < b)

/-- sorted(iterdir) comparison: directories compare by name here. -/
def dirLe (a b : Dir) : Bool := charListLe a.name.data b.name.data

/-- Stable insertion into a sorted list. -/
def sortInsert {α : Type} (le : α → α → Bool) (x : α) : List α → List α
  | [] => [x]
  | y :: ys => if le x y then x :: y :: ys else y :: sortInsert le x ys

/-- Stable insertion sort (python sorted). -/
def sortByBool {α : Type} (le : α → α → Bool) : List α → List α
  | [] => []
  | x :: xs => sortInsert le x (sortByBool le xs)

/-- sorted(path.iterdir()) over the subdirectories. -/
def sortDirs (ds : List Dir) : List Dir := sortByBool dirLe ds

/-- is_effort_dir: the directory contains the CLAUDE.md marker file. -/
def is_effort_dir (d : Dir) : Bool := d.files.contains "CLAUDE.md"

/-- find_tasks_file: probe the recognised task file names in order. -/
def find_tasks_file (p : Path) (d : Dir) : Option Path :=
  (TASK_FILE_NAMES.find? (fun n => d.files.contains n)).map (fun n => p ++ [n])

/-- Top-level names skipped by scan_efforts. -/
def SKIP_NAMES : List String := ["__ideas", "dashboard.base"]

/-- The reserved backlog subdirectory name. -/
def BACKLOG_DIR : String := "__backlog"

mutual

/-- Number of directories in a tree (the fuel bound for the backlog scan). -/
def Dir.size : Dir → Nat
  | .mk _ _ children => 1 + dirListSize children

/-- Total size of a list of directory trees. -/
def dirListSize : List Dir → Nat
  | [] => 0
  | d :: ds => d.size + dirListSize ds

end

/-- scan_backlog_dir: recursively scan a backlog directory; a marker-bearing
child is a backlog effort, a marker-less child is recursed into.  Fuel is
structural; the size of the directory tree is always sufficient (children
are strictly smaller). -/
def scan_backlog_dir : Nat → Dir → Path → List Effort
  | 0, _, _ => []
  | fuel + 1, .mk _ _ children, p =>
    (sortDirs children).flatMap (fun c =>
      if is_effort_dir c then
        [⟨c.name, p ++ [c.name], .backlog, false, find_tasks_file (p ++ [c.name]) c⟩]
      else scan_backlog_dir fuel c (p ++ [c.name]))

/-- scan_backlog_dir at its call site (fuel instantiated). -/
def scan_backlog (d : Dir) (p : Path) : List Effort := scan_backlog_dir d.size d p

/-- The per-child body of the scan_efforts loop. -/
def scanStep (rootPath : Path) (result : List (String × Effort)) (c : Dir) :
    List (String × Effort) :=
  if SKIP_NAMES.contains c.name then result
  else if c.name == BACKLOG_DIR then
    (scan_backlog c (rootPath ++ [c.name])).foldl
      (fun r e => dictInsert r e.name e) result
  else if is_effort_dir c then
    dictInsert result c.name
      ⟨c.name, rootPath ++ [c.name], .active, false,
       find_tasks_file (rootPath ++ [c.name]) c⟩
  else result

/-- scan_efforts: walk the efforts root; none models a missing root
directory.  The result dict maps effort name to Effort. -/
def scan_efforts (root : Option Dir) (rootPath : Path) : List (String × Effort) :=
  match root with
  | none => []
  | some d => (sortDirs d.children).foldl (scanStep rootPath) []

/-! ## utils/dates.py — duration_to_minutes (used for the estimate column) -/

/-- Decimal digits to a Nat. -/
def natOfDigits (l : List Char) : Nat := l.foldl (fun a c => a * 10 + (c.toNat - 48)) 0

/-- Try the pattern "digits, optional fraction when allowFrac, optional
whitespace, unit letter" at the head of the text.  Returns (integer part,
fraction digits, fraction length).  The character classes exclude their
terminators, so the greedy runs need no backtracking; Python's float
arithmetic is modelled exactly on the decimal value. -/
def tryNumUnit (allowFrac : Bool) (unit : Char) (s : List Char) : Option (Nat × Nat × Nat) :=
  let ds := s.takeWhile Char.isDigit
  if ds.isEmpty then none
  else
    let rest1 := s.drop ds.length
    let fr :=
      if allowFrac then
        match rest1 with
        | '.' :: r2 =>
          let fs := r2.takeWhile Char.isDigit
          if fs.isEmpty then (0, 0, rest1) else (natOfDigits fs, fs.length, r2.drop fs.length)
        | _ => (0, 0, rest1)
      else (0, 0, rest1)
    match fr.2.2.dropWhile pyWs with
    | u :: _ => if u = unit then some (natOfDigits ds, fr.1, fr.2.1) else none
    | [] => none

/-- re.search: first position where the number-unit pattern matches. -/
def searchNumUnit (allowFrac : Bool) (unit : Char) : List Char → Option (Nat × Nat × Nat)
  | [] => none
  | c :: rest =>
    match tryNumUnit allowFrac unit (c :: rest) with
    | some r => some r
    | none => searchNumUnit allowFrac unit rest

/-- Value times factor, truncated to an integer (int(float(g) * factor)). -/
def numTimes (factor : Nat) (r : Nat × Nat × Nat) : Nat :=
  (r.1 * 10 ^ r.2.2 + r.2.1) * factor / 10 ^ r.2.2

/-- duration_to_minutes from utils/dates.py. -/
def duration_to_minutes (s : String) : Option Nat :=
  if s = "" then none
  else
    let t := (pstripped s.data).map Char.toLower
    let dayMin := match searchNumUnit true 'd' t with
      | some r => numTimes 1440 r
      | none => 0
    let hourMin := match searchNumUnit true 'h' t with
      | some r => numTimes 60 r
      | none => 0
    let minMin := match searchNumUnit false 'm' t with
      | some r => r.1
      | none => 0
    let total := dayMin + hourMin + minMin
    if total > 0 then some total else none

/-! ## cache/vault_cache.py -/

/-- Generic startswith on lists (used for path prefixes). -/
def listStartsWith {α : Type} [DecidableEq α] : List α → List α → Bool
  | [], _ => true
  | _ :: _, [] => false
  | p :: ps, x :: xs => if p = x then listStartsWith ps xs else false

/-- str(path): the textual form stored in the SQLite file_path column. -/
def pathStr (p : Path) : String := String.intercalate "/" p

/-- path.name: the final segment. -/
def pathName (p : Path) : String := (p.getLast?).getD ""

/-- _effort_name_from_path from cache/vault_cache.py. -/
def effort_name_from_path (filePath : Path) (vaultRoot : Path) : Option String :=
  let base := vaultRoot ++ ["efforts"]
  if listStartsWith base filePath then
    match filePath.drop base.length with
    | [] => none
    | p0 :: rest =>
      if p0 = "__backlog" then
        match rest with
        | p1 :: _ => some p1
        | [] => some p0
      else some p0
  else none

/-- A row of the SQLite tasks table. -/
structure Row where
  id : String
  title : String
  status : String
  filePath : String
  effortName : Option String
  sectionName : Option String
  indentLevel : Nat
  dueDate : Option String
  scheduledDate : Option String
  createdDate : Option String
  completedDate : Option String
  isStub : Bool
  hasBlockers : Bool
  estimateMinutes : Option Nat
  parentId : Option String
deriving DecidableEq

/-- _task_to_row from cache/vault_cache.py. -/
def task_to_row (t : Task) (filePath : Path) (vaultRoot : Path) (parentId : Option String) :
    Row :=
  { id := (t.id).getD "", title := t.title, status := t.status,
    filePath := pathStr filePath,
    effortName := effort_name_from_path filePath vaultRoot,
    sectionName := t.sectionName, indentLevel := t.indentLevel,
    dueDate := dictGet t.tags "due", scheduledDate := dictGet t.tags "scheduled",
    createdDate := dictGet t.tags "created", completedDate := dictGet t.tags "completed",
    isStub := t.is_stub, hasBlockers := t.is_blocked,
    estimateMinutes := duration_to_minutes ((dictGet t.tags "estimate").getD ""),
    parentId := parentId }

/-- INSERT OR REPLACE on the id primary key: the conflicting row is deleted
and the new row appended (fresh rowid, hence last in scan order). -/
def insertOrReplace (rows : List Row) (r : Row) : List Row :=
  (rows.filter (fun x => !(x.id == r.id))) ++ [r]

mutual

/-- The per-task body of _insert_tasks_recursive: insert the row, then the
children with this task's id as parent. -/
def insert_task_rows : List Row → Task → Path → Path → Option String → List Row
  | rows, .mk a b c d e children f g h i, fp, vr, pid =>
    let rows1 := insertOrReplace rows (task_to_row (.mk a b c d e children f g h i) fp vr pid)
    insert_forest_rows rows1 children fp vr b

/-- _insert_tasks_recursive over sibling tasks in order. -/
def insert_forest_rows : List Row → List Task → Path → Path → Option String → List Row
  | rows, [], _, _, _ => rows
  | rows, t :: ts, fp, vr, pid =>
    insert_forest_rows (insert_task_rows rows t fp vr pid) ts fp vr pid

end

/-- _insert_tasks_recursive from cache/vault_cache.py. -/
def insert_tasks_rec (rows : List Row) (ts : List Task) (fp vr : Path)
    (pid : Option String) : List Row :=
  insert_forest_rows rows ts fp vr pid

/-- State threaded through the id back-fill: known ids, oracle index, and
whether any id was assigned (needs_write). -/
structure BSt where
  used : List String
  gi : Nat
  assigned : Bool

mutual

/-- Back-fill of one task (the per-task body of the two loops of
_upsert_file): a task without an id draws fresh ids until one is unknown,
records it in the id field and the tag dict, and marks needs_write. -/
def backfillTask (gen : Nat → String) (fuel : Nat) : Task → BSt → Option (Task × BSt)
  | .mk title tid status tags notes children il ln sn sl, st =>
    match tid with
    | some i =>
      match backfillForest gen fuel children st with
      | some (children2, st2) =>
        some (.mk title (some i) status tags notes children2 il ln sn sl, st2)
      | none => none
    | none =>
      match drawFresh gen (fun s => st.used.contains s) fuel st.gi with
      | some (nid, gi2) =>
        match backfillForest gen fuel children ⟨st.used ++ [nid], gi2, true⟩ with
        | some (children2, st3) =>
          some (.mk title (some nid) status (dictInsert tags "id" nid) notes children2
                  il ln sn sl, st3)
        | none => none
      | none => none

/-- Back-fill over sibling tasks in order (preorder overall, matching the
iteration order of all_tasks). -/
def backfillForest (gen : Nat → String) (fuel : Nat) : List Task → BSt → Option (List Task × BSt)
  | [], st => some ([], st)
  | t :: ts, st =>
    match backfillTask gen fuel t st with
    | some (t2, st2) =>
      match backfillForest gen fuel ts st2 with
      | some (ts2, st3) => some (t2 :: ts2, st3)
      | none => none
    | none => none

end

/-- Back-fill over the sections of a tree in order. -/
def backfillSections (gen : Nat → String) (fuel : Nat) :
    List SectionBlock → BSt → Option (List SectionBlock × BSt)
  | [], st => some ([], st)
  | s :: ss, st =>
    match backfillForest gen fuel s.tasks st with
    | some (ts2, st2) =>
      match backfillSections gen fuel ss st2 with
      | some (ss2, st3) => some (⟨s.heading, s.level, ts2⟩ :: ss2, st3)
      | none => none
    | none => none

/-- One file on disk: its content and its modification time. -/
structure DiskFile where
  content : String
  mtime : Nat
deriving DecidableEq

/-- The world outside the cache: the disk (with a monotone write clock),
the id oracle (stream, next index, loop fuel), the efforts directory tree
and today's date. -/
structure World where
  disk : List (Path × DiskFile)
  clock : Nat
  gen : Nat → String
  genIdx : Nat
  idFuel : Nat
  effortsDir : Option Dir
  today : String

/-- Read a file (none: the path does not exist / cannot be read). -/
def diskGet (w : World) (p : Path) : Option DiskFile := dictGet w.disk p

/-- Write a file: content replaced, mtime = the advanced clock. -/
def diskWrite (w : World) (p : Path) (content : String) : World :=
  { w with disk := dictInsert w.disk p ⟨content, w.clock + 1⟩, clock := w.clock + 1 }

/-- VaultCache state: the primary file map, the id index, the SQLite rows,
the effort map, and the configuration set at initialization. -/
structure CacheState where
  files : List (Path × CachedFile)
  tasksById : List (String × (Task × Path))
  rows : List Row
  efforts : List (String × Effort)
  vaultRoot : Path
  excludeDirs : List String

/-- _upsert_file from cache/vault_cache.py: remove the old entries of the
path, back-fill missing ids against every known id plus this file's
explicit ids, write the file back when an id was assigned, then store into
the file map, the id index and the SQLite rows.  none: the back-fill loop
exhausted its fuel (the Python loop would not have terminated yet). -/
def upsert_file (st : CacheState) (w : World) (cached : CachedFile) :
    Option (CacheState × World) :=
  let path := cached.filePath
  let st1 :=
    match dictGet st.files path with
    | some old =>
      let oldIds := (old.tree.all_tasks).filterMap Task.id
      { st with tasksById := oldIds.foldl (fun m i => dictPop m i) st.tasksById,
                rows := st.rows.filter (fun r => !(r.filePath == pathStr path)) }
    | none => st
  let explicit := (cached.tree.all_tasks).filterMap Task.id
  let used0 := dictKeys st1.tasksById ++ explicit
  match backfillSections w.gen w.idFuel cached.tree.sections ⟨used0, w.genIdx, false⟩ with
  | none => none
  | some (sections2, bst) =>
    let tree2 : TaskTree := ⟨cached.tree.filePath, sections2, cached.tree.frontmatterLines⟩
    let ww :=
      if bst.assigned then
        let w2 := diskWrite { w with genIdx := bst.gi } path (write_file tree2)
        (w2, w2.clock)
      else ({ w with genIdx := bst.gi }, cached.mtime)
    let cached2 : CachedFile := ⟨path, tree2, ww.2⟩
    let byId2 := (tree2.all_tasks).foldl
      (fun m t => dictInsert m ((t.id).getD "") (t, path)) st1.tasksById
    let rows2 := tree2.sections.foldl
      (fun rows s => insert_tasks_rec rows s.tasks path st.vaultRoot none) st1.rows
    some ({ st1 with files := dictInsert st1.files path cached2,
                     tasksById := byId2, rows := rows2 }, ww.1)

/-- _load_file from cache/vault_cache.py: stat + parse + upsert; a path that
cannot be read is logged and leaves the cache unchanged. -/
def load_file (st : CacheState) (w : World) (path : Path) : Option (CacheState × World) :=
  match diskGet w path with
  | none => some (st, w)
  | some df => upsert_file st w ⟨path, parse_content df.content path, df.mtime⟩

/-- _remove_file from cache/vault_cache.py. -/
def remove_file (st : CacheState) (path : Path) : CacheState :=
  match dictGet st.files path with
  | none => st
  | some cached =>
    let ids := (cached.tree.all_tasks).filterMap Task.id
    { st with files := dictPop st.files path,
              tasksById := ids.foldl (fun m i => dictPop m i) st.tasksById,
              rows := st.rows.filter (fun r => !(r.filePath == pathStr path)) }

/-- refresh_efforts from cache/vault_cache.py. -/
def refresh_efforts (st : CacheState) (w : World) : CacheState :=
  { st with efforts := scan_efforts w.effortsDir (st.vaultRoot ++ ["efforts"]) }

/-- refresh_file from cache/vault_cache.py: the special efforts sentinel
path triggers an effort re-scan; unrecognised file names return at once; a
missing path is removed; otherwise re-parse only when the on-disk mtime
strictly exceeds the recorded one. -/
def refresh_file (st : CacheState) (w : World) (path : Path) : Option (CacheState × World) :=
  if path = st.vaultRoot ++ ["efforts"] then some (refresh_efforts st w, w)
  else if !(TASK_FILE_NAMES.contains (pathName path)) then some (st, w)
  else
    match diskGet w path with
    | none => some (remove_file st path, w)
    | some df =>
      match dictGet st.files path with
      | some existing =>
        if df.mtime ≤ existing.mtime then some (st, w) else load_file st w path
      | none => load_file st w path

/-- _walk_task_files: recognised task files under the root whose relative
path has no excluded component (enumeration order: the disk list order). -/
def walk_task_files (w : World) (root : Path) (exclude : List String) : List Path :=
  (w.disk.map Prod.fst).filter (fun p =>
    TASK_FILE_NAMES.contains (pathName p) &&
    (if listStartsWith root p then
      ((p.drop root.length).dropLast).all (fun seg => !(exclude.contains seg))
     else false))

/-- _load_file over a list of paths in order. -/
def loadFold : CacheState → World → List Path → Option (CacheState × World)
  | st, w, [] => some (st, w)
  | st, w, p :: ps =>
    match load_file st w p with
    | some (st2, w2) => loadFold st2 w2 ps
    | none => none

/-- initialize + _full_scan from cache/vault_cache.py: load every walked
task file, then scan the efforts directory. -/
def initVault (root : Path) (exclude : List String) (w : World) :
    Option (CacheState × World) :=
  match loadFold ⟨[], [], [], [], root, exclude⟩ w (walk_task_files w root exclude) with
  | some (st1, w1) =>
    some ({ st1 with efforts := scan_efforts w1.effortsDir (root ++ ["efforts"]) }, w1)
  | none => none

mutual

/-- Attach a child under the first task (preorder) with the given id,
popping the parent's stub tag (the mutation of the add_task parent branch). -/
def attachTask (pid : String) (child : Task) : Task → (Task × Bool)
  | .mk title tid status tags notes children il ln sn sl =>
    if tid == some pid then
      (.mk title tid status (dictPop tags "stub") notes (children ++ [child]) il ln sn sl,
       true)
    else
      match attachForest pid child children with
      | (children2, found) => (.mk title tid status tags notes children2 il ln sn sl, found)

/-- attachTask over sibling tasks; stops after the first hit. -/
def attachForest (pid : String) (child : Task) : List Task → (List Task × Bool)
  | [] => ([], false)
  | t :: ts =>
    match attachTask pid child t with
    | (t2, true) => (t2 :: ts, true)
    | (t2, false) =>
      match attachForest pid child ts with
      | (ts2, found) => (t2 :: ts2, found)

end

/-- attachTask over the sections of a tree. -/
def attachSections (pid : String) (child : Task) :
    List SectionBlock → (List SectionBlock × Bool)
  | [] => ([], false)
  | s :: ss =>
    match attachForest pid child s.tasks with
    | (ts2, true) => (⟨s.heading, s.level, ts2⟩ :: ss, true)
    | (_, false) =>
      match attachSections pid child ss with
      | (ss2, found) => (s :: ss2, found)

/-- Append a task to the first section with the given heading. -/
def appendToSection : List SectionBlock → String → Task → List SectionBlock
  | [], _, _ => []
  | s :: ss, h, t =>
    if s.heading == h then ⟨s.heading, s.level, s.tasks ++ [t]⟩ :: ss
    else s :: appendToSection ss h t

/-- Python truthiness of an optional string argument. -/
def optTruthy (o : Option String) : Option String :=
  match o with
  | some s => if s = "" then none else some s
  | none => none

/-- add_task from cache/vault_cache.py.  Returns the new state, world and
the task handed back to the caller (the freshly indexed task when the new
id was found after the reload, otherwise the in-memory new_task object). -/
def add_task (st : CacheState) (w : World) (filePath : Path) (title : String)
    (sectionArg : Option String) (status : String) (tags : List (String × String))
    (parentId : Option String) : Option (CacheState × World × Task) :=
  match drawFresh w.gen (fun s => (dictGet st.tasksById s).isSome) w.idFuel w.genIdx with
  | none => none
  | some (newId, gi2) =>
    let w1 := { w with genIdx := gi2 }
    let allTags :=
      dictSetDefault (dictInsert (dictInsert tags "id" newId) "created" w.today) "stub" ""
    let cached :=
      match dictGet st.files filePath with
      | some c => c
      | none => ⟨filePath, ⟨filePath, [], []⟩, 0⟩
    let tree := cached.tree
    let built : TaskTree × Task :=
      match optTruthy parentId with
      | some pid =>
        (match tree.find_by_id pid with
         | some parent =>
           let nt : Task := .mk title (some newId) status allTags [] []
             (parent.indentLevel + 1) 0 parent.sectionName parent.sectionLevel
           let att := attachSections pid nt tree.sections
           (⟨tree.filePath, att.1, tree.frontmatterLines⟩, nt)
         | none =>
           (tree, .mk title (some newId) status allTags [] [] 0 0 none 0))
      | none =>
        let secRes : List SectionBlock × String × Nat :=
          match optTruthy sectionArg with
          | some sec =>
            (match tree.find_section sec with
             | some ts => (tree.sections, ts.heading, ts.level)
             | none => (tree.sections ++ [⟨sec, 3, []⟩], sec, 3))
          | none =>
            match tree.sections with
            | s :: _ => (tree.sections, s.heading, s.level)
            | [] => ([⟨"Open", 3, []⟩], "Open", 3)
        let nt : Task := .mk title (some newId) status allTags [] [] 0 0
          (some secRes.2.1) secRes.2.2
        (⟨tree.filePath, appendToSection secRes.1 secRes.2.1 nt, tree.frontmatterLines⟩, nt)
    let tree2 := built.1
    let w2 := diskWrite w1 filePath (write_file tree2)
    let st2 := { st with files := dictInsert st.files filePath ⟨filePath, tree2, cached.mtime⟩ }
    match load_file st2 w2 filePath with
    | none => none
    | some (st3, w3) =>
      match dictGet st3.tasksById newId with
      | some tp => some (st3, w3, tp.1)
      | none => some (st3, w3, built.2)

/-- The keyword arguments of query_tasks (defaults as in the source). -/
structure QueryArgs where
  status : Option String := none
  effort : Option String := none
  dueBefore : Option String := none
  scheduledBefore : Option String := none
  scheduledOn : Option String := none
  stub : Option Bool := none
  blocked : Option Bool := none
  filePath : Option Path := none
  parentId : Option String := none
  includeSubtasks : Bool := false
  limit : Nat := 500

/-- The WHERE clause of query_tasks as a row predicate (SQLite TEXT
comparison is byte order; on the ASCII dates used it is charListLe). -/
def rowMatches (args : QueryArgs) (r : Row) : Bool :=
  (match optTruthy args.status with
   | some s => ((s.splitOn ",").map (fun x => pstrip x.data)).contains r.status
   | none => true) &&
  (match optTruthy args.effort with
   | some e => r.effortName == some e
   | none => true) &&
  (match optTruthy args.dueBefore with
   | some d =>
     (match r.dueDate with
      | some dd => charListLe dd.data d.data
      | none => false)
   | none => true) &&
  (match optTruthy args.scheduledBefore with
   | some d =>
     (match r.scheduledDate with
      | some sd => charListLe sd.data d.data
      | none => false)
   | none => true) &&
  (match optTruthy args.scheduledOn with
   | some d => r.scheduledDate == some d
   | none => true) &&
  (match args.stub with
   | some b => r.isStub == b
   | none => true) &&
  (match args.blocked with
   | some b => r.hasBlockers == b
   | none => true) &&
  (match args.filePath with
   | some p => r.filePath == pathStr p
   | none => true) &&
  (match optTruthy args.parentId with
   | some p => r.parentId == some p
   | none => true)

/-- Resolve matched row ids to live tasks, keeping the seen-id set. -/
def resolveRows (st : CacheState) : List Row → List Task × List String
  | [] => ([], [])
  | row :: rest =>
    match dictGet st.tasksById row.id with
    | some tp =>
      match resolveRows st rest with
      | (ts, seen) => (tp.1 :: ts, row.id :: seen)
    | none => resolveRows st rest

/-- The include_subtasks expansion: descendants of each matched task that
carry a non-empty id not yet seen, appended after the matched tasks. -/
def expandSubtasks : List Task → List Task × List String → List Task × List String
  | [], acc => acc
  | t :: ts, acc =>
    let step := (t.all_tasks.drop 1).foldl
      (fun (a : List Task × List String) child =>
        match child.id with
        | some cid =>
          if cid ≠ "" && !(a.2.contains cid) then (a.1 ++ [child], a.2 ++ [cid]) else a
        | none => a) acc
    expandSubtasks ts step

/-- query_tasks from cache/vault_cache.py: filter the rows, LIMIT them,
resolve through the id index, then optionally append descendants. -/
def query_tasks (st : CacheState) (args : QueryArgs) : List Task :=
  let matched := (st.rows.filter (rowMatches args)).take args.limit
  let res := resolveRows st matched
  if args.includeSubtasks then
    let ex := expandSubtasks res.1 ([], res.2)
    res.1 ++ ex.1
  else res.1

/-- get_task from cache/vault_cache.py. -/
def get_task (st : CacheState) (tid : String) : Option (Task × Path) :=
  dictGet st.tasksById tid

/-! ## Derived observations used by the theorems -/

/-- The ids (in preorder) of all tasks of a forest. -/
def forestIds (f : List Task) : List String := (forest_all_tasks f).filterMap Task.id

/-- The ids (in preorder) of one task and its descendants. -/
def taskIds (t : Task) : List String := (t.all_tasks).filterMap Task.id

/-- The ids (in preorder) of all tasks across a section list. -/
def sectionsIds (ss : List SectionBlock) : List String :=
  ss.flatMap (fun s => forestIds s.tasks)


/-- The ids (in preorder) of all tasks of a tree. -/
def treeIds (t : TaskTree) : List String := (t.all_tasks).filterMap Task.id

/-- The explicit ids a path contributes on disk (empty for a missing path). -/
def explicitOf (w : World) (p : Path) : List String :=
  match diskGet w p with
  | some df => treeIds (parse_content df.content p)
  | none => []

/-- All tasks reachable from the cache's file map, across files in map order. -/
def reachableTasks (st : CacheState) : List Task :=
  st.files.flatMap (fun pc => pc.2.tree.all_tasks)

/-- The ids of all tasks reachable from the cache's file map. -/
def reachableIds (st : CacheState) : List String :=
  st.files.flatMap (fun pc => treeIds pc.2.tree)

/-- The start position of the earliest tag match of a text (the length of
the text when there is none). -/
def earliestTagPos (text : List Char) : Nat :=
  match scanTags (maskWiki text) with
  | [] => text.length
  | m :: _ => m.1

/-- The directories the backlog scan can reach from a directory: children,
and recursively the reachable directories of marker-less children (the scan
does not descend into a directory that is itself an effort). -/
inductive ScanReach : Dir → Dir → Prop where
  | direct {b d : Dir} : d ∈ b.children → ScanReach b d
  | step {b c d : Dir} : c ∈ b.children → is_effort_dir c = false → ScanReach c d →
      ScanReach b d

mutual

/-- All strict descendants of a directory. -/
def Dir.descendants : Dir → List Dir
  | .mk _ _ children => dirListDescendants children

/-- The directories of a list together with all their descendants. -/
def dirListDescendants : List Dir → List Dir
  | [] => []
  | d :: ds => d :: d.descendants ++ dirListDescendants ds

end

/-- The invariant the spec claims for the cache: the reachable tasks carry
pairwise distinct ids. -/
def idsUnique (st : CacheState) : Prop := (reachableIds st).Nodup

/-- The explicit ids of the walked files of a world, as parsed from their
on-disk content, concatenated in walk order. -/
def walkedExplicitIds (w : World) (root : Path) (exclude : List String) : List String :=
  (walk_task_files w root exclude).flatMap (fun p =>
    match diskGet w p with
    | some df => treeIds (parse_content df.content p)
    | none => [])

/-! ## Concrete fixtures used by counterexamples and witnesses -/

/-- A deterministic id oracle. -/
def genC : Nat → String := fun n => "gen" ++ toString n

/-- The empty cache state. -/
def emptyCache : CacheState := ⟨[], [], [], [], [], []⟩

/-- A dead world (used only as a getD fallback). -/
def deadWorld : World := ⟨[], 0, fun _ => "", 0, 0, none, ""⟩

/-- Two files carrying the same explicit id. -/
def c1World : World :=
  ⟨[(["v", "a", "TASKS.md"], ⟨"- [ ] A 🆔 aaaaaa", 1⟩),
    (["v", "b", "TASKS.md"], ⟨"- [ ] B 🆔 aaaaaa", 2⟩)],
   10, genC, 0, 30, none, "2026-10-12"⟩

/-- The cache and world after a full scan of c1World. -/
def c1Init : CacheState × World := (initVault ["v"] [] c1World).getD (emptyCache, deadWorld)

/-- Two files whose explicit ids are globally distinct, scanned with an id
oracle that never collides with them. -/
def c1Good : World :=
  ⟨[(["v", "a", "TASKS.md"], ⟨"- [ ] A 🆔 aaa111", 1⟩),
    (["v", "b", "TASKS.md"], ⟨"- [ ] B 🆔 bbb222\n    - [ ] C", 2⟩)],
   10, fun _ => "zzzzzz", 0, 30, none, "2026-10-12"⟩

/-- The cache and world after a full scan of c1Good. -/
def c1GoodInit : CacheState × World := (initVault ["v"] [] c1Good).getD (emptyCache, deadWorld)

/-- One file whose on-disk text is not in canonical serialized form. -/
def c4World : World :=
  ⟨[(["v", "a", "TASKS.md"], ⟨"- [ ] A 🆔 aaaaaa\n\nnot a task line", 1⟩)],
   10, genC, 0, 30, none, "2026-10-12"⟩

/-- The cache and world after a full scan of c4World. -/
def c4Init : CacheState × World := (initVault ["v"] [] c4World).getD (emptyCache, deadWorld)

/-- The cached file of c4Init. -/
def c4Cf : CachedFile :=
  (dictGet c4Init.1.files ["v", "a", "TASKS.md"]).getD ⟨[], ⟨[], [], []⟩, 0⟩

/-- A parent task and one child, both with explicit ids. -/
def c10World : World :=
  ⟨[(["v", "e", "TASKS.md"], ⟨"- [ ] Parent 🆔 aaa111\n    - [ ] Child 🆔 bbb222", 1⟩)],
   10, genC, 0, 30, none, "2026-10-12"⟩

/-- The cache and world after a full scan of c10World. -/
def c10Init : CacheState × World := (initVault ["v"] [] c10World).getD (emptyCache, deadWorld)

/-- The cache after caching a file with an unrecognised name through
add_task on an empty vault. -/
def c6State : CacheState × World :=
  (add_task emptyCache { deadWorld with gen := genC, idFuel := 5 } ["v", "note.md"]
      "Note task" none "open" [] none).map (fun r => (r.1, r.2.1))
    |>.getD (emptyCache, deadWorld)

/-- A world in which the cached note file no longer exists on disk. -/
def c6Gone : World := ⟨[], 10, genC, 0, 30, none, ""⟩

/-- An efforts tree: a backlog effort A containing a nested marker dir C, a
top-level effort B, and a marker dir D nested below a plain directory. -/
def c9Root : Dir :=
  Dir.mk "efforts" []
    [Dir.mk "__backlog" []
      [Dir.mk "A" ["CLAUDE.md"] [Dir.mk "C" ["CLAUDE.md"] []]],
     Dir.mk "B" ["CLAUDE.md"] [],
     Dir.mk "nomark" [] [Dir.mk "D" ["CLAUDE.md"] []]]

/-! # Theorems

Helper lemmas first, then one theorem per claim (with counterexamples and
witnesses where the status requires them). -/

/-! ## Generic dictionary lemmas -/

theorem dictGet_eq_none_of_not_mem {κ α : Type} [DecidableEq κ]
    {d : List (κ × α)} {k : κ} (h : k ∉ dictKeys d) : dictGet d k = none := by
  induction d with
  | nil => rfl
  | cons p rest ih =>
    obtain ⟨k', v⟩ := p
    rw [dictKeys, List.map_cons] at h
    rw [List.mem_cons, not_or] at h
    rw [dictGet, if_neg (fun he => h.1 he.symm)]
    exact ih h.2

theorem dict_eq_of_keys_and_lookups : ∀ {t1 t2 : List (String × String)},
    dictKeys t1 = dictKeys t2 → (∀ k, dictGet t1 k = dictGet t2 k) →
    (dictKeys t1).Nodup → t1 = t2 := by
  intro t1
  induction t1 with
  | nil =>
    intro t2 hk _ _
    cases t2 with
    | nil => rfl
    | cons q r2 => exact absurd hk (by simp [dictKeys])
  | cons p r1 ih =>
    intro t2 hk hv hnd
    obtain ⟨k1, v1⟩ := p
    cases t2 with
    | nil => exact absurd hk (by simp [dictKeys])
    | cons q r2 =>
      obtain ⟨k2, v2⟩ := q
      rw [dictKeys, dictKeys, List.map_cons, List.map_cons] at hk
      injection hk with hk1 hk2
      simp only at hk1
      subst hk1
      have hval := hv k1
      rw [dictGet, if_pos rfl, dictGet, if_pos rfl] at hval
      injection hval with hval
      subst hval
      rw [dictKeys, List.map_cons, List.nodup_cons] at hnd
      have hr : r1 = r2 := by
        apply ih
        · exact hk2
        · intro k
          by_cases hkp : k1 = k
          · subst hkp
            rw [dictGet_eq_none_of_not_mem hnd.1,
                dictGet_eq_none_of_not_mem (k := k1) (d := r2) ?_]
            show k1 ∉ List.map Prod.fst r2
            rw [← hk2]
            exact hnd.1
          · have h := hv k
            rw [dictGet, if_neg hkp, dictGet, if_neg hkp] at h
            exact h
        · exact hnd.2
      rw [hr]

/-! ## Masking and scanning lemmas -/

theorem findCloseIdx_lt (l : List Char) : ∀ j, findCloseIdx l = some j → j + 1 < l.length := by
  induction l using findCloseIdx.induct with
  | case1 tail =>
    intro j h
    simp only [findCloseIdx, Option.some.injEq] at h
    simp only [List.length_cons]
    omega
  | case2 head rest hne ih =>
    intro j h
    rw [findCloseIdx.eq_def] at h
    split at h
    next _ tail heq =>
      injection heq with h1 h2
      exact (hne tail h1 h2).elim
    next _ c2 rest2 _ heq =>
      injection heq with h1 h2
      subst h2
      rcases Option.map_eq_some'.mp h with ⟨j', hj', rfl⟩
      have := ih j' hj'
      simp only [List.length_cons]
      omega
    next _ heq => cases h
  | case3 => intro j h; simp [findCloseIdx] at h

theorem maskWikiAux_length (fuel : Nat) (s : List Char) :
    (maskWikiAux fuel s).length = s.length := by
  induction fuel, s using maskWikiAux.induct with
  | case1 s => simp [maskWikiAux]
  | case2 fuel rest j hj ih =>
    have hlt := findCloseIdx_lt rest j hj
    simp [maskWikiAux, hj, ih]
    omega
  | case3 fuel rest hj ih => simp [maskWikiAux, hj, ih]
  | case4 fuel c rest hne ih => simp [maskWikiAux, ih]
  | case5 n => simp [maskWikiAux]

theorem maskWiki_length (s : List Char) : (maskWiki s).length = s.length :=
  maskWikiAux_length s.length s

theorem scanTagsAux_lb (fuel : Nat) (s : List Char) (pos : Nat) :
    ∀ m ∈ scanTagsAux fuel s pos, pos ≤ m.1 := by
  induction fuel, s, pos using scanTagsAux.induct with
  | case1 s pos => simp [scanTagsAux]
  | case2 n pos => simp [scanTagsAux]
  | case3 fuel c rest pos extra k v hm ih =>
    intro m hmem
    simp only [scanTagsAux, hm] at hmem
    rcases List.mem_cons.mp hmem with h | h
    · subst h; simp
    · have := ih m h; omega
  | case4 fuel c rest pos hm ih =>
    intro m hmem
    simp only [scanTagsAux, hm] at hmem
    have := ih m hmem; omega

theorem scanTagsAux_head (fuel : Nat) (s : List Char) (pos : Nat) :
    ∀ m rest, scanTagsAux fuel s pos = m :: rest →
      pos ≤ m.1 ∧ m.1 < pos + s.length ∧ ∀ x ∈ rest, m.1 ≤ x.1 := by
  induction fuel, s, pos using scanTagsAux.induct with
  | case1 s pos => intro m rest h; simp [scanTagsAux] at h
  | case2 n pos => intro m rest h; simp [scanTagsAux] at h
  | case3 fuel c rest0 pos extra k v hm ih =>
    intro m rest h
    simp only [scanTagsAux, hm, List.cons.injEq] at h
    obtain ⟨rfl, rfl⟩ := h
    refine ⟨le_refl _, by simp only [List.length_cons]; omega, ?_⟩
    intro x hx
    have := scanTagsAux_lb fuel (rest0.drop extra) (pos + 1 + extra) x hx
    omega
  | case4 fuel c rest0 pos hm ih =>
    intro m rest h
    simp only [scanTagsAux, hm] at h
    obtain ⟨h1, h2, h3⟩ := ih m rest h
    refine ⟨by omega, by simp only [List.length_cons] at h2 ⊢; omega, h3⟩

theorem foldl_min_const (xs : List (Nat × String × String)) (e : Nat)
    (h : ∀ x ∈ xs, e ≤ x.1) : xs.foldl (fun a m => min a m.1) e = e := by
  induction xs generalizing e with
  | nil => rfl
  | cons x xs ih =>
    have hx : min e x.1 = e := Nat.min_eq_left (h x (by simp))
    simp only [List.foldl_cons, hx]
    exact ih e (fun y hy => h y (by simp [hy]))

theorem split_tags_title (text : List Char) :
    (split_tags text).1 = pstrip (text.take (earliestTagPos text)) := by
  unfold split_tags earliestTagPos
  cases h : scanTags (maskWiki text) with
  | nil => simp [h]
  | cons m rest =>
    obtain ⟨h1, h2, h3⟩ := scanTagsAux_head (maskWiki text).length (maskWiki text) 0 m rest h
    rw [maskWiki_length] at h2
    simp only [h, List.foldl_cons]
    have hmin : min text.length m.1 = m.1 := Nat.min_eq_right (by omega)
    rw [hmin, foldl_min_const rest m.1 h3]

/-! ## Claim C7 -/

/-- C7: wiki-link spans are masked by equal-length blanks before tag
scanning, so offsets are preserved; a title containing a bracketed
double-reference followed by a real trailing tag keeps the bracketed text
verbatim in the title, and no marker inside the brackets leaks into the tag
map. -/
theorem C7_wiki_links_masked :
    (∀ s : List Char, (maskWiki s).length = s.length) ∧
    split_tags "Research [[Note#Section]] #stub".data =
      ("Research [[Note#Section]]", [("stub", "")]) ∧
    dictGet (split_tags "Research [[Note#Section]] #stub".data).2 "Section" = none :=
  ⟨maskWiki_length, by decide, by decide⟩

/-! ## Claim C8 -/

/-- C8: the sample content splits into title "Buy milk" and exactly the tag
map id/due/stub, and in general the extracted title is the stripped text
before the earliest tag match. -/
theorem C8_split_example_and_title_rule :
    split_tags "Buy milk 🆔 tsk001 📅 2026-02-28 #stub".data =
      ("Buy milk", [("id", "tsk001"), ("due", "2026-02-28"), ("stub", "")]) ∧
    ∀ text : List Char, (split_tags text).1 = pstrip (text.take (earliestTagPos text)) :=
  ⟨by decide, split_tags_title⟩

/-! ## Claim C2 -/

/-- C2: one parse/serialize pass is not a fixed point for every input: a
checkbox line whose content is blank parses to an empty-title task whose
serialization (with a trailing space) is dropped by the next parse, so the
second serialization differs from the first. -/
theorem C2_fixed_point_fails_on_blank_task :
    write_file (parse_content "- [ ]  " []) = "- [ ] " ∧
    write_file (parse_content (write_file (parse_content "- [ ]  " [])) []) = "" ∧
    write_file (parse_content (write_file (parse_content "- [ ]  " [])) []) ≠
      write_file (parse_content "- [ ]  " []) :=
  ⟨by decide, by decide, by decide⟩

/-! ## Claim C3 -/

/-- C3 counterexample: two tag maps with the same key-value pairs in
different insertion order render differently, so the rendering is not
independent of insertion order. -/
theorem C3_counterexample :
    render_tags [("due", "2026-01-01"), ("id", "abc123")] ≠
      render_tags [("id", "abc123"), ("due", "2026-01-01")] := by decide

/-- C3 (amended): tag rendering is canonical per tag but follows the map's
insertion order: two tag maps with the same key sequence and the same value
at every key render identically. -/
theorem C3_render_follows_insertion_order :
    ∀ t1 t2 : List (String × String),
      dictKeys t1 = dictKeys t2 → (∀ k, dictGet t1 k = dictGet t2 k) →
      (dictKeys t1).Nodup → render_tags t1 = render_tags t2 := by
  intro t1 t2 hk hv hnd
  rw [dict_eq_of_keys_and_lookups hk hv hnd]

theorem C3_witness :
    render_tags [("due", "2026-01-01"), ("stub", "")] =
      render_tags [("due", "2026-01-01"), ("stub", "")] :=
  C3_render_follows_insertion_order _ _ rfl (fun _ => rfl) (by decide)

/-! ## Claim C5 -/

theorem drawFresh_some_fresh (gen : Nat → String) (known : String → Bool) :
    ∀ fuel i s j, drawFresh gen known fuel i = some (s, j) →
      known s = false ∧ ∃ n, s = gen n := by
  intro fuel
  induction fuel with
  | zero => intro i s j h; simp [drawFresh] at h
  | succ fuel ih =>
    intro i s j h
    by_cases hk : known (gen i)
    · rw [show drawFresh gen known (fuel + 1) i = drawFresh gen known fuel (i + 1) from by
          simp [drawFresh, hk]] at h
      exact ih (i + 1) s j h
    · rw [show drawFresh gen known (fuel + 1) i = some (gen i, i + 1) from by
          simp [drawFresh, hk]] at h
      obtain ⟨rfl, rfl⟩ : gen i = s ∧ i + 1 = j := by
        simpa using h
      exact ⟨by simpa using hk, i, rfl⟩

theorem drawFresh_const_none :
    ∀ fuel i, drawFresh (fun _ => "aaaaaa") (fun s => s == "aaaaaa") fuel i = none := by
  intro fuel
  induction fuel with
  | zero => intro i; rfl
  | succ fuel ih => intro i; simp [drawFresh, ih]

/-- C5 counterexample: with every draw colliding (the known set contains
the only id the generator produces), the generate-and-check loop never
terminates and never reports an error: no amount of fuel yields a result.
This refutes both the bounded-retry claim and the termination claim. -/
theorem C5_counterexample :
    ¬ ∃ fuel r, drawFresh (fun _ => "aaaaaa") (fun s => s == "aaaaaa") fuel 0 = some r := by
  rintro ⟨fuel, r, h⟩
  rw [drawFresh_const_none] at h
  cases h

/-- C5 (amended): the generate-and-check loop has no retry bound and no
fatal-error report; it terminates exactly when some draw falls outside the
known-id set — with a fresh draw at index i + n it succeeds within n + 1
draws, and any id it returns is fresh. -/
theorem C5_loop_terminates_iff_fresh_draw :
    (∀ (gen : Nat → String) (known : String → Bool) (n i : Nat),
        known (gen (i + n)) = false → (drawFresh gen known (n + 1) i).isSome = true) ∧
    (∀ (gen : Nat → String) (known : String → Bool) (fuel i : Nat) (s : String) (j : Nat),
        drawFresh gen known fuel i = some (s, j) → known s = false) := by
  constructor
  · intro gen known n
    induction n with
    | zero =>
      intro i h
      simp only [Nat.add_zero] at h
      simp [drawFresh, h]
    | succ n ih =>
      intro i h
      by_cases hk : known (gen i)
      · have : drawFresh gen known (n + 1 + 1) i = drawFresh gen known (n + 1) (i + 1) := by
          simp [drawFresh, hk]
        rw [this]
        exact ih (i + 1) (by rw [show i + 1 + n = i + (n + 1) from by omega]; exact h)
      · simp [drawFresh, hk]
  · intro gen known fuel i s j h
    exact (drawFresh_some_fresh gen known fuel i s j h).1

theorem C5_witness :
    (drawFresh genC (fun s => s == "gen0") 2 0).isSome = true :=
  C5_loop_terminates_iff_fresh_draw.1 genC (fun s => s == "gen0") 1 0 (by decide)

/-! ## Claim C10 -/

theorem resolveRows_length_le (st : CacheState) (rows : List Row) :
    (resolveRows st rows).1.length ≤ rows.length := by
  induction rows with
  | nil => simp [resolveRows]
  | cons row rest ih =>
    simp only [resolveRows]
    cases dictGet st.tasksById row.id with
    | none => simp; omega
    | some tp =>
      cases h : resolveRows st rest with
      | mk ts seen => simp [h] at ih ⊢; omega

/-- C10: with include_subtasks disabled the result is bounded by limit
(the LIMIT applies to the index-matched rows); with include_subtasks the
descendants are appended after the limit is applied, so a limit-1 query
over a parent/child file returns both tasks. -/
theorem C10_limit_bounds_only_index_matches :
    (∀ (st : CacheState) (args : QueryArgs), args.includeSubtasks = false →
        (query_tasks st args).length ≤ args.limit) ∧
    (query_tasks c10Init.1 { limit := 1, includeSubtasks := true }).map Task.title =
      ["Parent", "Child"] ∧
    (query_tasks c10Init.1 { limit := 1 }).map Task.title = ["Parent"] := by
  refine ⟨?_, by decide, by decide⟩
  intro st args h
  unfold query_tasks
  rw [h]
  simp only [Bool.false_eq_true, if_false]
  calc (resolveRows st ((st.rows.filter (rowMatches args)).take args.limit)).1.length
      ≤ ((st.rows.filter (rowMatches args)).take args.limit).length :=
        resolveRows_length_le _ _
    _ ≤ args.limit := List.length_take_le _ _

theorem C10_witness : (query_tasks c10Init.1 { limit := 1 }).length ≤ 1 :=
  C10_limit_bounds_only_index_matches.1 c10Init.1 { limit := 1 } rfl

/-! ## More dictionary lemmas -/

theorem dictGet_dictInsert_self {κ α : Type} [DecidableEq κ]
    (d : List (κ × α)) (k : κ) (v : α) : dictGet (dictInsert d k v) k = some v := by
  induction d with
  | nil => simp [dictInsert, dictGet]
  | cons p rest ih =>
    obtain ⟨k', v'⟩ := p
    by_cases h : k' = k
    · simp [dictInsert, dictGet, h]
    · simp [dictInsert, dictGet, h, ih]

theorem dictGet_dictInsert_ne {κ α : Type} [DecidableEq κ]
    (d : List (κ × α)) (kk k : κ) (v : α) (h : kk ≠ k) :
    dictGet (dictInsert d kk v) k = dictGet d k := by
  induction d with
  | nil => simp [dictInsert, dictGet, h]
  | cons p rest ih =>
    obtain ⟨k', v'⟩ := p
    by_cases hk : k' = kk
    · subst hk
      simp [dictInsert, dictGet, h]
    · simp [dictInsert, dictGet, hk, ih]

theorem dictGet_dictPop_none {κ α : Type} [DecidableEq κ]
    (d : List (κ × α)) (kk k : κ) (h : dictGet d k = none) :
    dictGet (dictPop d kk) k = none := by
  induction d with
  | nil => exact h
  | cons p rest ih =>
    obtain ⟨k', v'⟩ := p
    by_cases hp : k' = k
    · rw [dictGet, if_pos hp] at h
      cases h
    · rw [dictGet, if_neg hp] at h
      by_cases hk : k' = kk
      · simp [dictPop, hk, h]
      · rw [dictPop, if_neg hk, dictGet, if_neg hp]
        exact ih h

theorem dictGet_foldl_dictPop_none {κ α : Type} [DecidableEq κ]
    (ks : List κ) (d : List (κ × α)) (k : κ) (h : dictGet d k = none) :
    dictGet (ks.foldl (fun m i => dictPop m i) d) k = none := by
  induction ks generalizing d with
  | nil => exact h
  | cons i ks ih => exact ih _ (dictGet_dictPop_none _ _ _ h)

theorem dictGet_foldl_dictInsert_ne {κ α β : Type} [DecidableEq κ]
    (key : β → κ) (val : β → α) (l : List β) (m : List (κ × α)) (k : κ)
    (h : ∀ b ∈ l, key b ≠ k) :
    dictGet (l.foldl (fun m b => dictInsert m (key b) (val b)) m) k = dictGet m k := by
  induction l generalizing m with
  | nil => rfl
  | cons b l ih =>
    simp only [List.foldl_cons]
    rw [ih _ (fun b hb => h b (by simp [hb]))]
    exact dictGet_dictInsert_ne _ _ _ _ (h b (by simp))

/-! ## Back-fill no-op lemmas (every task already has an id) -/

mutual

theorem backfillTask_noop (gen : Nat → String) (fuel : Nat) :
    ∀ t : Task, (∀ u ∈ t.all_tasks, (u.id).isSome = true) →
      ∀ st : BSt, backfillTask gen fuel t st = some (t, st)
  | .mk title tid status tags notes children il ln sn sl => by
    intro hids st
    have hself : (Task.id (.mk title tid status tags notes children il ln sn sl)).isSome = true :=
      hids _ (by rw [Task.all_tasks]; exact List.mem_cons_self _ _)
    rw [Task.id] at hself
    obtain ⟨i, rfl⟩ := Option.isSome_iff_exists.mp hself
    rw [backfillTask]
    rw [backfillForest_noop gen fuel children
      (fun u hu => hids u (by rw [Task.all_tasks]; exact List.mem_cons_of_mem _ hu)) st]

theorem backfillForest_noop (gen : Nat → String) (fuel : Nat) :
    ∀ f : List Task, (∀ u ∈ forest_all_tasks f, (u.id).isSome = true) →
      ∀ st : BSt, backfillForest gen fuel f st = some (f, st)
  | [] => by intro _ st; rfl
  | t :: ts => by
    intro hids st
    have h1 := backfillTask_noop gen fuel t
      (fun u hu => hids u (by rw [forest_all_tasks]; exact List.mem_append_left _ hu)) st
    have h2 := backfillForest_noop gen fuel ts
      (fun u hu => hids u (by rw [forest_all_tasks]; exact List.mem_append_right _ hu)) st
    simp only [backfillForest, h1, h2]

end

theorem backfillSections_noop (gen : Nat → String) (fuel : Nat) :
    ∀ ss : List SectionBlock,
      (∀ s ∈ ss, ∀ u ∈ forest_all_tasks s.tasks, (u.id).isSome = true) →
      ∀ st : BSt, backfillSections gen fuel ss st = some (ss, st) := by
  intro ss
  induction ss with
  | nil => intro _ st; rfl
  | cons s rest ih =>
    intro hids st
    have h1 := backfillForest_noop gen fuel s.tasks (hids s (by simp)) st
    have h2 := ih (fun s' hs' => hids s' (by simp [hs'])) st
    simp only [backfillSections, h1, h2]

/-! ## Claim C4 -/

theorem diskGet_diskWrite_self (w : World) (p : Path) (c : String) :
    diskGet (diskWrite w p c) p = some ⟨c, w.clock + 1⟩ :=
  dictGet_dictInsert_self _ _ _

theorem upsert_file_noBackfill (st : CacheState) (w : World) (path : Path)
    (tree : TaskTree) (m : Nat)
    (hids : ∀ u ∈ tree.all_tasks, (u.id).isSome = true) :
    upsert_file st w ⟨path, tree, m⟩ =
      some
        ((fun st1 =>
          { st1 with files := dictInsert st1.files path ⟨path, tree, m⟩,
                     tasksById := (tree.all_tasks).foldl
                       (fun mm t => dictInsert mm ((t.id).getD "") (t, path)) st1.tasksById,
                     rows := tree.sections.foldl
                       (fun rows s => insert_tasks_rec rows s.tasks path st.vaultRoot none)
                       st1.rows })
          (match dictGet st.files path with
           | some old =>
             { st with tasksById := ((old.tree.all_tasks).filterMap Task.id).foldl
                         (fun mm i => dictPop mm i) st.tasksById,
                       rows := st.rows.filter (fun r => !(r.filePath == pathStr path)) }
           | none => st), w) := by
  have hsec : ∀ s ∈ tree.sections, ∀ u ∈ forest_all_tasks s.tasks, (u.id).isSome = true := by
    intro s hs u hu
    exact hids u (by unfold TaskTree.all_tasks; exact List.mem_flatMap.mpr ⟨s, hs, hu⟩)
  unfold upsert_file
  cases hold : dictGet st.files path with
  | none =>
    simp only [hold, backfillSections_noop _ _ _ hsec]
    rfl
  | some old =>
    simp only [hold, backfillSections_noop _ _ _ hsec]
    rfl

/-- C4 counterexample: adding under an unknown parent id is not reported as
a failure and the file on disk is not left unchanged: the caller receives an
ordinary task object, and the file is rewritten in canonical serialized form
(here the non-canonical trailing text of the file is dropped). -/
theorem C4_counterexample :
    (diskGet c4Init.2 ["v", "a", "TASKS.md"]).map DiskFile.content =
      some "- [ ] A 🆔 aaaaaa\n\nnot a task line" ∧
    (dictGet c4Init.1.files ["v", "a", "TASKS.md"]).map
      (fun cf => (cf.tree.find_by_id "zzzzzz").isSome) = some false ∧
    (add_task c4Init.1 c4Init.2 ["v", "a", "TASKS.md"] "New task" none "open" []
        (some "zzzzzz")).map
      (fun r => ((diskGet r.2.1 ["v", "a", "TASKS.md"]).map DiskFile.content,
                 r.2.2.title, r.2.2.id)) =
      some (some "- [ ] A 🆔 aaaaaa", "New task", some "gen0") :=
  ⟨by decide, by decide, by decide⟩

/-- C4 (amended): for a cached file, add_task with a parent id that does not
resolve in the file's tree silently attaches nothing: the call still
rewrites the file on disk (with the serialization of the unchanged cached
tree), returns the orphan in-memory task object rather than any failure
report, and indexes no task under the new id. -/
theorem C4_unknown_parent_silent_rewrite :
    ∀ (st : CacheState) (w : World) (path : Path) (cf : CachedFile)
      (title status : String) (tags : List (String × String)) (pid : String)
      (nid : String) (gi2 : Nat),
      dictGet st.files path = some cf →
      pid ≠ "" →
      cf.tree.find_by_id pid = none →
      drawFresh w.gen (fun s => (dictGet st.tasksById s).isSome) w.idFuel w.genIdx =
        some (nid, gi2) →
      (∀ u ∈ (parse_content (write_file cf.tree) path).all_tasks, (u.id).isSome = true) →
      nid ∉ treeIds (parse_content (write_file cf.tree) path) →
      (add_task st w path title none status tags (some pid)).map
        (fun r => ((diskGet r.2.1 path).map DiskFile.content, r.2.2,
                   (dictGet r.1.tasksById nid).isSome)) =
      some (some (write_file cf.tree),
            Task.mk title (some nid) status
              (dictSetDefault (dictInsert (dictInsert tags "id" nid) "created" w.today)
                "stub" "") [] [] 0 0 none 0,
            false) := by
  intro st w path cf title status tags pid nid gi2 hcf hpid hfind hdraw hids hnid
  have hnone : dictGet st.tasksById nid = none := by
    have h := (drawFresh_some_fresh _ _ _ _ _ _ hdraw).1
    simp only at h
    cases hx : dictGet st.tasksById nid with
    | none => rfl
    | some v => rw [hx] at h; simp at h
  have hkeys : ∀ t ∈ (parse_content (write_file cf.tree) path).all_tasks,
      (t.id).getD "" ≠ nid := by
    intro t ht
    obtain ⟨i, hi⟩ := Option.isSome_iff_exists.mp (hids t ht)
    rw [hi]
    intro he
    exact hnid (by rw [← he]; exact List.mem_filterMap.mpr ⟨t, ht, by rw [hi]; rfl⟩)
  unfold add_task
  rw [hdraw]
  simp only [optTruthy, if_neg hpid, hcf, hfind]
  rw [load_file]
  simp only [diskGet_diskWrite_self]
  rw [upsert_file_noBackfill _ _ _ _ _ hids]
  simp only [dictGet_dictInsert_self]
  rw [dictGet_foldl_dictInsert_ne (fun t : Task => (t.id).getD "")
        (fun t : Task => (t, path)) _ _ _ hkeys]
  rw [dictGet_foldl_dictPop_none _ _ _ hnone]
  simp only [Option.map_some']
  rw [diskGet_diskWrite_self]
  rw [dictGet_foldl_dictInsert_ne (fun t : Task => (t.id).getD "")
        (fun t : Task => (t, path)) _ _ _ hkeys]
  rw [dictGet_foldl_dictPop_none _ _ _ hnone]
  rfl

theorem C4_witness :
    (add_task c4Init.1 c4Init.2 ["v", "a", "TASKS.md"] "New task" none "open" []
        (some "zzzzzz")).map
      (fun r => ((diskGet r.2.1 ["v", "a", "TASKS.md"]).map DiskFile.content, r.2.2,
                 (dictGet r.1.tasksById "gen0").isSome)) =
    some (some (write_file c4Cf.tree),
          Task.mk "New task" (some "gen0") "open"
            (dictSetDefault (dictInsert (dictInsert [] "id" "gen0") "created"
              c4Init.2.today) "stub" "") [] [] 0 0 none 0,
          false) :=
  C4_unknown_parent_silent_rewrite c4Init.1 c4Init.2 ["v", "a", "TASKS.md"] c4Cf
    "New task" "open" [] "zzzzzz" "gen0" 1 rfl (by decide) rfl rfl (by decide) (by decide)

/-! ## Claim C6 -/

theorem dictKeys_dictPop_sublist {κ α : Type} [DecidableEq κ]
    (d : List (κ × α)) (k : κ) : (dictKeys (dictPop d k)).Sublist (dictKeys d) := by
  induction d with
  | nil => simp [dictPop]
  | cons p rest ih =>
    obtain ⟨k', v'⟩ := p
    by_cases h : k' = k
    · simp only [dictPop, if_pos h]
      exact (List.sublist_cons_self _ _)
    · simp only [dictPop, if_neg h, dictKeys, List.map_cons]
      exact List.Sublist.cons₂ _ ih

theorem dictGet_dictPop_self_nodup {κ α : Type} [DecidableEq κ]
    (d : List (κ × α)) (k : κ) (hnd : (dictKeys d).Nodup) :
    dictGet (dictPop d k) k = none := by
  induction d with
  | nil => rfl
  | cons p rest ih =>
    obtain ⟨k', v'⟩ := p
    rw [dictKeys, List.map_cons, List.nodup_cons] at hnd
    by_cases h : k' = k
    · rw [dictPop, if_pos h]
      subst h
      exact dictGet_eq_none_of_not_mem hnd.1
    · rw [dictPop, if_neg h, dictGet, if_neg h]
      exact ih hnd.2

theorem dictGet_foldl_dictPop_mem {κ α : Type} [DecidableEq κ]
    (ks : List κ) (d : List (κ × α)) (i : κ)
    (hnd : (dictKeys d).Nodup) (hi : i ∈ ks) :
    dictGet (ks.foldl (fun m k => dictPop m k) d) i = none := by
  induction ks generalizing d with
  | nil => cases hi
  | cons k ks ih =>
    simp only [List.foldl_cons]
    rcases List.mem_cons.mp hi with rfl | hi2
    · exact dictGet_foldl_dictPop_none _ _ _ (dictGet_dictPop_self_nodup _ _ hnd)
    · exact ih _ (hnd.sublist (dictKeys_dictPop_sublist _ _)) hi2

theorem pathName_concat (l : List String) (x : String) : pathName (l ++ [x]) = x := by
  unfold pathName
  rw [List.getLast?_concat]
  rfl

theorem load_file_mtime_sync (st : CacheState) (w : World) (path : Path)
    (st2 : CacheState) (w2 : World) (df : DiskFile)
    (hdf : diskGet w path = some df)
    (h : load_file st w path = some (st2, w2)) :
    ∃ cf2 df2, dictGet st2.files path = some cf2 ∧ diskGet w2 path = some df2 ∧
      df2.mtime ≤ cf2.mtime := by
  simp only [load_file, hdf, upsert_file] at h
  split at h
  · cases h
  · split at h
    · simp only [Option.some.injEq, Prod.mk.injEq] at h
      obtain ⟨h1, h2⟩ := h
      subst h1
      subst h2
      split
      · exact ⟨_, _, dictGet_dictInsert_self _ _ _, diskGet_diskWrite_self _ _ _, le_refl _⟩
      · exact ⟨_, _, dictGet_dictInsert_self _ _ _, hdf, le_refl _⟩
    · simp only [Option.some.injEq, Prod.mk.injEq] at h
      obtain ⟨h1, h2⟩ := h
      subst h1
      subst h2
      split
      · exact ⟨_, _, dictGet_dictInsert_self _ _ _, diskGet_diskWrite_self _ _ _, le_refl _⟩
      · exact ⟨_, _, dictGet_dictInsert_self _ _ _, hdf, le_refl _⟩

/-- C6 counterexample: a cached path whose file name is not a recognised
task file name (here one cached through add_task) is ignored entirely by
refresh_file: when the path no longer exists on disk, its indexed tasks are
NOT removed, contradicting the claim for every cached path. -/
theorem C6_counterexample :
    (dictGet c6State.1.files ["v", "note.md"]).isSome = true ∧
    dictKeys c6State.1.tasksById = ["gen0"] ∧
    diskGet c6Gone ["v", "note.md"] = none ∧
    (refresh_file c6State.1 c6Gone ["v", "note.md"]).map
      (fun p => (dictKeys p.1.tasksById, (dictGet p.1.files ["v", "note.md"]).isSome)) =
      some (["gen0"], true) :=
  ⟨by decide, by decide, by decide, by decide⟩

/-- C6 (amended): for every cached path whose file name is a recognised
task file name, refresh_file re-parses only when the on-disk mtime strictly
exceeds the recorded one (at most or equal: full no-op); when the path no
longer exists it removes the file and all its indexed tasks and rows; and
the operation is idempotent: a second refresh returns the reached state
unchanged.  Cached paths with unrecognised names are ignored entirely (see
the counterexample). -/
theorem C6_refresh_semantics :
    ∀ (st : CacheState) (w : World) (path : Path) (cf : CachedFile),
      TASK_FILE_NAMES.contains (pathName path) = true →
      dictGet st.files path = some cf →
      (dictKeys st.files).Nodup →
      ((∀ df, diskGet w path = some df → df.mtime ≤ cf.mtime →
          refresh_file st w path = some (st, w)) ∧
       (diskGet w path = none →
          refresh_file st w path = some (remove_file st path, w) ∧
          dictGet (remove_file st path).files path = none ∧
          ((dictKeys st.tasksById).Nodup →
            ∀ i ∈ (cf.tree.all_tasks).filterMap Task.id,
              dictGet (remove_file st path).tasksById i = none) ∧
          (∀ r ∈ (remove_file st path).rows, ¬ r.filePath = pathStr path)) ∧
       (∀ df, diskGet w path = some df → cf.mtime < df.mtime →
          refresh_file st w path = load_file st w path) ∧
       (∀ st2 w2, refresh_file st w path = some (st2, w2) →
          refresh_file st2 w2 path = some (st2, w2))) := by
  intro st w path cf hname hcf hfnd
  have heff : ∀ root : Path, path ≠ root ++ ["efforts"] := by
    intro root he
    rw [he, pathName_concat] at hname
    exact absurd hname (by decide)
  constructor
  · intro df hdf hle
    rw [refresh_file, if_neg (heff st.vaultRoot), hname]
    simp only [Bool.not_true, Bool.false_eq_true, if_false, hdf, hcf, if_pos hle]
  constructor
  · intro hnone
    have hrw : refresh_file st w path = some (remove_file st path, w) := by
      rw [refresh_file, if_neg (heff st.vaultRoot), hname]
      simp only [Bool.not_true, Bool.false_eq_true, if_false, hnone]
    refine ⟨hrw, ?_, ?_, ?_⟩
    · rw [remove_file, hcf]
      exact dictGet_dictPop_self_nodup _ _ hfnd
    · intro hbnd i hi
      rw [remove_file, hcf]
      exact dictGet_foldl_dictPop_mem _ _ _ hbnd hi
    · intro r hr
      rw [remove_file, hcf] at hr
      have := (List.mem_filter.mp hr).2
      simp only [Bool.not_eq_eq_eq_not, Bool.not_true, beq_eq_false_iff_ne] at this
      exact this
  constructor
  · intro df hdf hlt
    rw [refresh_file, if_neg (heff st.vaultRoot), hname]
    simp only [Bool.not_true, Bool.false_eq_true, if_false, hdf, hcf,
      if_neg (by omega : ¬ df.mtime ≤ cf.mtime)]
  · intro st2 w2 h2
    rw [refresh_file, if_neg (heff st.vaultRoot), hname] at h2
    simp only [Bool.not_true, Bool.false_eq_true, if_false] at h2
    cases hdf : diskGet w path with
    | none =>
      rw [hdf] at h2
      simp only [Option.some.injEq, Prod.mk.injEq] at h2
      obtain ⟨h2a, h2b⟩ := h2
      subst h2b
      have hnone2 : dictGet st2.files path = none := by
        rw [← h2a, remove_file, hcf]
        exact dictGet_dictPop_self_nodup _ _ hfnd
      rw [refresh_file, if_neg (heff st2.vaultRoot), hname]
      simp only [Bool.not_true, Bool.false_eq_true, if_false, hdf]
      rw [remove_file, hnone2]
    | some df =>
      simp only [hdf, hcf] at h2
      by_cases hle : df.mtime ≤ cf.mtime
      · rw [if_pos hle] at h2
        simp only [Option.some.injEq, Prod.mk.injEq] at h2
        obtain ⟨h2a, h2b⟩ := h2
        subst h2a
        subst h2b
        rw [refresh_file, if_neg (heff st.vaultRoot), hname]
        simp only [Bool.not_true, Bool.false_eq_true, if_false, hdf, hcf, if_pos hle]
      · rw [if_neg hle] at h2
        obtain ⟨cf2, df2, hcf2, hdf2, hle2⟩ :=
          load_file_mtime_sync st w path st2 w2 df hdf h2
        rw [refresh_file, if_neg (heff st2.vaultRoot), hname]
        simp only [Bool.not_true, Bool.false_eq_true, if_false, hdf2, hcf2,
          if_pos hle2]

theorem C6_witness :
    refresh_file c4Init.1 c6Gone ["v", "a", "TASKS.md"] =
      some (remove_file c4Init.1 ["v", "a", "TASKS.md"], c6Gone) :=
  ((C6_refresh_semantics c4Init.1 c6Gone ["v", "a", "TASKS.md"] c4Cf (by decide) rfl
      (by decide)).2.1 rfl).1

/-! ## Claim C9 -/

theorem sortInsert_perm {α : Type} (le : α → α → Bool) (x : α) (l : List α) :
    (sortInsert le x l).Perm (x :: l) := by
  induction l with
  | nil => simp [sortInsert]
  | cons y ys ih =>
    by_cases h : le x y
    · simp [sortInsert, h]
    · simp only [sortInsert, if_neg h]
      exact (ih.cons y).trans (List.Perm.swap x y ys)

theorem sortByBool_perm {α : Type} (le : α → α → Bool) (l : List α) :
    (sortByBool le l).Perm l := by
  induction l with
  | nil => simp [sortByBool]
  | cons x xs ih =>
    simp only [sortByBool]
    exact (sortInsert_perm le x (sortByBool le xs)).trans (ih.cons x)

theorem mem_sortDirs {d : Dir} {ds : List Dir} : d ∈ sortDirs ds ↔ d ∈ ds :=
  (sortByBool_perm dirLe ds).mem_iff

theorem dir_size_le_of_mem {c : Dir} {ds : List Dir} (h : c ∈ ds) :
    c.size ≤ dirListSize ds := by
  induction ds with
  | nil => cases h
  | cons d ds ih =>
    rcases List.mem_cons.mp h with rfl | h2
    · simp [dirListSize]
    · have := ih h2
      simp only [dirListSize]
      omega

theorem dir_size_pos (d : Dir) : 1 ≤ d.size := by
  obtain ⟨n, fs, cs⟩ := d
  simp [Dir.size]

theorem dir_size_child_lt {c : Dir} {n : String} {fs : List String} {cs : List Dir}
    (h : c ∈ cs) : c.size < (Dir.mk n fs cs).size := by
  have := dir_size_le_of_mem h
  simp only [Dir.size]
  omega

theorem mem_dictInsert {κ α : Type} [DecidableEq κ] {p : κ × α} :
    ∀ {d : List (κ × α)} {k : κ} {v : α}, p ∈ dictInsert d k v → p ∈ d ∨ p = (k, v) := by
  intro d
  induction d with
  | nil => intro k v h; simp [dictInsert] at h; right; simp [h]
  | cons q rest ih =>
    intro k v h
    obtain ⟨k', v'⟩ := q
    by_cases hk : k' = k
    · rw [dictInsert, if_pos hk] at h
      rcases List.mem_cons.mp h with rfl | h2
      · right; rw [hk]
      · left; exact List.mem_cons_of_mem _ h2
    · rw [dictInsert, if_neg hk] at h
      rcases List.mem_cons.mp h with rfl | h2
      · left; exact List.mem_cons_self _ _
      · rcases ih h2 with h3 | h3
        · left; exact List.mem_cons_of_mem _ h3
        · right; exact h3

theorem mem_effortFold : ∀ (l : List Effort) (acc : List (String × Effort))
    (p : String × Effort),
    p ∈ l.foldl (fun r e => dictInsert r e.name e) acc →
    p ∈ acc ∨ ∃ e ∈ l, p = (e.name, e) := by
  intro l
  induction l with
  | nil => intro acc p h; exact Or.inl h
  | cons e l ih =>
    intro acc p h
    rcases ih _ p h with h2 | ⟨e', he', rfl⟩
    · rcases mem_dictInsert h2 with h3 | h3
      · exact Or.inl h3
      · exact Or.inr ⟨e, List.mem_cons_self _ _, h3⟩
    · exact Or.inr ⟨e', List.mem_cons_of_mem _ he', rfl⟩

theorem mem_dirListDescendants_self {c : Dir} {ds : List Dir} (h : c ∈ ds) :
    c ∈ dirListDescendants ds := by
  induction ds with
  | nil => cases h
  | cons d ds ih =>
    rcases List.mem_cons.mp h with rfl | h2
    · simp [dirListDescendants]
    · simp only [dirListDescendants]
      exact List.mem_cons_of_mem _ (List.mem_append_right _ (ih h2))

theorem mem_dirListDescendants_trans {x c : Dir} {ds : List Dir}
    (hc : c ∈ ds) (hx : x ∈ c.descendants) : x ∈ dirListDescendants ds := by
  induction ds with
  | nil => cases hc
  | cons d ds ih =>
    rcases List.mem_cons.mp hc with rfl | h2
    · simp only [dirListDescendants]
      exact List.mem_cons_of_mem _ (List.mem_append_left _ hx)
    · simp only [dirListDescendants]
      exact List.mem_cons_of_mem _ (List.mem_append_right _ (ih h2))

theorem scan_backlog_dir_reach : ∀ {b d : Dir}, ScanReach b d →
    is_effort_dir d = true → ∀ (fuel : Nat) (p : Path), b.size ≤ fuel →
    ∃ q, (⟨d.name, q, .backlog, false, find_tasks_file q d⟩ : Effort) ∈
      scan_backlog_dir fuel b p := by
  intro b d hreach
  induction hreach with
  | direct hmem =>
    rename_i b d
    intro hd fuel p hfuel
    obtain ⟨n, fs, cs⟩ := b
    cases fuel with
    | zero => simp only [Dir.size] at hfuel; omega
    | succ fuel =>
      refine ⟨p ++ [d.name], ?_⟩
      simp only [scan_backlog_dir]
      apply List.mem_flatMap.mpr
      refine ⟨d, mem_sortDirs.mpr hmem, ?_⟩
      rw [if_pos hd]
      exact List.mem_singleton.mpr rfl
  | step hmem hnm hr ih =>
    rename_i b c d
    intro hd fuel p hfuel
    obtain ⟨n, fs, cs⟩ := b
    cases fuel with
    | zero => simp only [Dir.size] at hfuel; omega
    | succ fuel =>
      have hcs : c.size ≤ fuel := by
        have h2 := @dir_size_child_lt c n fs cs hmem
        simp only [Dir.size] at hfuel h2
        omega
      obtain ⟨q, hq⟩ := ih hd fuel (p ++ [c.name]) hcs
      refine ⟨q, ?_⟩
      simp only [scan_backlog_dir]
      apply List.mem_flatMap.mpr
      refine ⟨c, mem_sortDirs.mpr hmem, ?_⟩
      rw [if_neg (by simp [hnm])]
      exact hq

theorem scan_backlog_dir_marker : ∀ (fuel : Nat) (b : Dir) (p : Path) (e : Effort),
    e ∈ scan_backlog_dir fuel b p →
    ∃ d, d ∈ b.descendants ∧ is_effort_dir d = true ∧ e.name = d.name ∧
      e.status = .backlog := by
  intro fuel
  induction fuel with
  | zero => intro b p e h; simp [scan_backlog_dir] at h
  | succ fuel ih =>
    intro b p e h
    obtain ⟨n, fs, cs⟩ := b
    simp only [scan_backlog_dir] at h
    obtain ⟨c, hc, hce⟩ := List.mem_flatMap.mp h
    have hc2 : c ∈ cs := mem_sortDirs.mp hc
    by_cases hm : is_effort_dir c = true
    · rw [if_pos hm] at hce
      have he := List.mem_singleton.mp hce
      subst he
      refine ⟨c, ?_, hm, rfl, rfl⟩
      simp only [Dir.descendants]
      exact mem_dirListDescendants_self hc2
    · rw [if_neg hm] at hce
      obtain ⟨d, hd1, hd2, hd3, hd4⟩ := ih c (p ++ [c.name]) e hce
      refine ⟨d, ?_, hd2, hd3, hd4⟩
      simp only [Dir.descendants]
      exact mem_dirListDescendants_trans hc2 hd1

theorem dictGet_effortFold_ne : ∀ (l : List Effort) (m : List (String × Effort))
    (k : String), (∀ e ∈ l, e.name ≠ k) →
    dictGet (l.foldl (fun r e => dictInsert r e.name e) m) k = dictGet m k := by
  intro l
  induction l with
  | nil => intro m k _; rfl
  | cons e l ih =>
    intro m k h
    simp only [List.foldl_cons]
    rw [ih _ _ (fun e2 he2 => h e2 (List.mem_cons_of_mem _ he2))]
    exact dictGet_dictInsert_ne _ _ _ _ (h e (List.mem_cons_self _ _))

theorem scanFold_get_preserved : ∀ (ds : List Dir) (acc : List (String × Effort))
    (rootPath : Path) (target : String),
    (∀ d ∈ ds,
      (d.name = BACKLOG_DIR →
        ∀ e ∈ scan_backlog d (rootPath ++ [d.name]), e.name ≠ target) ∧
      (d.name ≠ BACKLOG_DIR → d.name ≠ target)) →
    dictGet (ds.foldl (scanStep rootPath) acc) target = dictGet acc target := by
  intro ds
  induction ds with
  | nil => intro acc rootPath target _; rfl
  | cons d ds ih =>
    intro acc rootPath target h
    have hd := h d (List.mem_cons_self _ _)
    simp only [List.foldl_cons]
    rw [ih _ _ _ (fun d2 hd2 => h d2 (List.mem_cons_of_mem _ hd2))]
    simp only [scanStep]
    by_cases h1 : SKIP_NAMES.contains d.name = true
    · rw [if_pos h1]
    · rw [if_neg h1]
      by_cases h2 : d.name = BACKLOG_DIR
      · rw [if_pos (by simp [h2])]
        exact dictGet_effortFold_ne _ _ _ (hd.1 h2)
      · rw [if_neg (by simp [h2])]
        by_cases h3 : is_effort_dir d = true
        · rw [if_pos h3]
          exact dictGet_dictInsert_ne _ _ _ _ (hd.2 h2)
        · rw [if_neg h3]

theorem scanFold_get_active : ∀ (ds : List Dir) (acc : List (String × Effort))
    (rootPath : Path) (c : Dir),
    c ∈ ds → (ds.map Dir.name).Nodup →
    SKIP_NAMES.contains c.name = false → c.name ≠ BACKLOG_DIR →
    is_effort_dir c = true →
    (∀ b ∈ ds, b.name = BACKLOG_DIR →
      ∀ e ∈ scan_backlog b (rootPath ++ [b.name]), e.name ≠ c.name) →
    dictGet (ds.foldl (scanStep rootPath) acc) c.name =
      some ⟨c.name, rootPath ++ [c.name], .active, false,
            find_tasks_file (rootPath ++ [c.name]) c⟩ := by
  intro ds
  induction ds with
  | nil => intro acc rootPath c hc; cases hc
  | cons d ds ih =>
    intro acc rootPath c hc hnd hskip hnb heff hok
    simp only [List.map_cons, List.nodup_cons] at hnd
    rcases List.mem_cons.mp hc with rfl | htl
    · simp only [List.foldl_cons]
      have hnames : ∀ d2 ∈ ds, d2.name ≠ c.name := by
        intro d2 hd2 he
        exact hnd.1 (he ▸ List.mem_map_of_mem _ hd2)
      have hcond : ∀ d2 ∈ ds,
          (d2.name = BACKLOG_DIR →
            ∀ e ∈ scan_backlog d2 (rootPath ++ [d2.name]), e.name ≠ c.name) ∧
          (d2.name ≠ BACKLOG_DIR → d2.name ≠ c.name) := by
        intro d2 hd2
        exact ⟨fun hb => hok d2 (List.mem_cons_of_mem _ hd2) hb,
               fun _ => hnames d2 hd2⟩
      rw [scanFold_get_preserved ds _ rootPath c.name hcond]
      simp only [scanStep]
      rw [if_neg (by rw [hskip]; exact Bool.false_ne_true),
          if_neg (by simp [hnb]), if_pos heff]
      exact dictGet_dictInsert_self _ _ _
    · simp only [List.foldl_cons]
      exact ih _ rootPath c htl hnd.2 hskip hnb heff
        (fun b hb => hok b (List.mem_cons_of_mem _ hb))

theorem scanFold_marker : ∀ (ds : List Dir) (acc : List (String × Effort))
    (rootPath : Path) (p : String × Effort),
    p ∈ ds.foldl (scanStep rootPath) acc →
    p ∈ acc ∨ ∃ d, (∃ c ∈ ds, d = c ∨ d ∈ c.descendants) ∧
      is_effort_dir d = true ∧ (p.2).name = d.name := by
  intro ds
  induction ds with
  | nil => intro acc rootPath p h; exact Or.inl h
  | cons d ds ih =>
    intro acc rootPath p h
    simp only [List.foldl_cons] at h
    rcases ih _ rootPath p h with h2 | ⟨d2, ⟨c, hc, hdc⟩, hm, hn⟩
    · simp only [scanStep] at h2
      by_cases h1 : SKIP_NAMES.contains d.name = true
      · rw [if_pos h1] at h2; exact Or.inl h2
      · rw [if_neg h1] at h2
        by_cases hb : d.name = BACKLOG_DIR
        · rw [if_pos (by simp [hb])] at h2
          rcases mem_effortFold _ _ _ h2 with h3 | ⟨e, he, rfl⟩
          · exact Or.inl h3
          · obtain ⟨d2, hd1, hd2, hd3, _⟩ := scan_backlog_dir_marker _ _ _ _ he
            exact Or.inr ⟨d2, ⟨d, List.mem_cons_self _ _, Or.inr hd1⟩, hd2, hd3⟩
        · rw [if_neg (by simp [hb])] at h2
          by_cases h3 : is_effort_dir d = true
          · rw [if_pos h3] at h2
            rcases mem_dictInsert h2 with h4 | rfl
            · exact Or.inl h4
            · exact Or.inr ⟨d, ⟨d, List.mem_cons_self _ _, Or.inl rfl⟩, h3, rfl⟩
          · rw [if_neg h3] at h2; exact Or.inl h2
    · exact Or.inr ⟨d2, ⟨c, List.mem_cons_of_mem _ hc, hdc⟩, hm, hn⟩

theorem scan_efforts_marker (root : Dir) (rootPath : Path) (n : String) (e : Effort)
    (h : (n, e) ∈ scan_efforts (some root) rootPath) :
    ∃ d, d ∈ root.descendants ∧ is_effort_dir d = true ∧ e.name = d.name := by
  simp only [scan_efforts] at h
  rcases scanFold_marker _ _ _ _ h with h2 | ⟨d, ⟨c, hc, hdc⟩, hm, hn⟩
  · cases h2
  · obtain ⟨rn, rfs, rcs⟩ := root
    have hc2 : c ∈ rcs := mem_sortDirs.mp hc
    refine ⟨d, ?_, hm, hn⟩
    simp only [Dir.descendants]
    rcases hdc with rfl | hdesc
    · exact mem_dirListDescendants_self hc2
    · exact mem_dirListDescendants_trans hc2 hdesc

/-- C9 counterexample: in c9Root the marker-bearing directory C sits below
the backlog effort A, and the marker-bearing directory D sits below the
marker-less top-level directory nomark; the scan finds A (backlog) and B
(active) but classifies neither C nor D as an effort, refuting "a
marker-bearing directory nested at any depth" and "any directory anywhere
under the efforts root containing the marker file is an effort". -/
theorem C9_counterexample :
    dictGet (scan_efforts (some c9Root) ["v", "efforts"]) "A" =
      some ⟨"A", ["v", "efforts", "__backlog", "A"], .backlog, false, none⟩ ∧
    dictGet (scan_efforts (some c9Root) ["v", "efforts"]) "B" =
      some ⟨"B", ["v", "efforts", "B"], .active, false, none⟩ ∧
    (∃ x ∈ c9Root.descendants, x.name = "C" ∧ is_effort_dir x = true) ∧
    dictGet (scan_efforts (some c9Root) ["v", "efforts"]) "C" = none ∧
    (∃ x ∈ c9Root.descendants, x.name = "D" ∧ is_effort_dir x = true) ∧
    dictGet (scan_efforts (some c9Root) ["v", "efforts"]) "D" = none := by
  decide

/-- C9 (amended): the scanner classifies per top-level entry, not by marker
presence at arbitrary depth.  (1) A marker-bearing directory reachable from
the backlog directory through a chain of marker-less directories is emitted
as a backlog effort (the backlog scan stops descending at marker-bearing
directories).  (2) A marker-bearing, non-reserved directory directly under
the efforts root is classified active, provided no backlog effort shares
its name (later dict inserts would overwrite).  (3) Every effort the scan
returns carries the name of some marker-bearing descendant of the root: a
directory without the marker is never classified as an effort. -/
theorem C9_scan_classification :
    (∀ (b d : Dir) (p : Path), ScanReach b d → is_effort_dir d = true →
      ∃ q, (⟨d.name, q, .backlog, false, find_tasks_file q d⟩ : Effort) ∈
        scan_backlog b p) ∧
    (∀ (root : Dir) (rootPath : Path) (c : Dir),
      c ∈ root.children → (root.children.map Dir.name).Nodup →
      SKIP_NAMES.contains c.name = false → c.name ≠ BACKLOG_DIR →
      is_effort_dir c = true →
      (∀ b ∈ root.children, b.name = BACKLOG_DIR →
        ∀ e ∈ scan_backlog b (rootPath ++ [b.name]), e.name ≠ c.name) →
      dictGet (scan_efforts (some root) rootPath) c.name =
        some ⟨c.name, rootPath ++ [c.name], .active, false,
              find_tasks_file (rootPath ++ [c.name]) c⟩) ∧
    (∀ (root : Dir) (rootPath : Path) (n : String) (e : Effort),
      (n, e) ∈ scan_efforts (some root) rootPath →
      ∃ d, d ∈ root.descendants ∧ is_effort_dir d = true ∧ e.name = d.name) := by
  refine ⟨?_, ?_, ?_⟩
  · intro b d p hreach hd
    exact scan_backlog_dir_reach hreach hd b.size p (le_refl _)
  · intro root rootPath c hc hnd hskip hnb heff hok
    simp only [scan_efforts]
    apply scanFold_get_active (sortDirs root.children) [] rootPath c
      (mem_sortDirs.mpr hc) ?_ hskip hnb heff ?_
    · exact ((sortByBool_perm dirLe root.children).map Dir.name).nodup_iff.mpr hnd
    · intro b hb
      exact hok b (mem_sortDirs.mp hb)
  · intro root rootPath n e h
    exact scan_efforts_marker root rootPath n e h

/-- The active-classification clause of C9_scan_classification evaluated on
the concrete tree c9Root at its top-level effort B. -/
theorem C9_witness :
    dictGet (scan_efforts (some c9Root) ["v", "efforts"]) "B" =
      some ⟨"B", ["v", "efforts", "B"], .active, false, none⟩ := by
  have h := C9_scan_classification.2.1 c9Root ["v", "efforts"]
      (Dir.mk "B" ["CLAUDE.md"] []) (by simp [c9Root, Dir.children]) (by decide)
      (by decide) (by decide) (by decide) (by decide)
  exact h

/-! ## Claim C1 -/

theorem dictInsert_eq_append {κ α : Type} [DecidableEq κ] :
    ∀ {d : List (κ × α)} {k : κ} (v : α), dictGet d k = none →
    dictInsert d k v = d ++ [(k, v)] := by
  intro d
  induction d with
  | nil => intro k v _; rfl
  | cons q rest ih =>
    intro k v h
    obtain ⟨k', v'⟩ := q
    simp only [dictGet] at h
    by_cases hk : k' = k
    · rw [if_pos hk] at h; cases h
    · rw [if_neg hk] at h
      simp only [dictInsert]
      rw [if_neg hk, ih _ h]
      rfl

theorem mem_dictKeys_dictInsert {κ α : Type} [DecidableEq κ] {i : κ} :
    ∀ {d : List (κ × α)} {k : κ} {v : α},
    i ∈ dictKeys (dictInsert d k v) ↔ i ∈ dictKeys d ∨ i = k := by
  intro d
  induction d with
  | nil => intro k v; simp [dictInsert, dictKeys]
  | cons q rest ih =>
    intro k v
    obtain ⟨k', v'⟩ := q
    by_cases hk : k' = k
    · subst hk
      have hred : dictInsert ((k', v') :: rest) k' v = (k', v) :: rest := by
        simp [dictInsert]
      rw [hred]
      simp only [dictKeys, List.map_cons, List.mem_cons]
      constructor
      · exact Or.inl
      · rintro ((h | h) | rfl)
        · exact Or.inl h
        · exact Or.inr h
        · exact Or.inl rfl
    · simp only [dictInsert, if_neg hk, dictKeys, List.map_cons, List.mem_cons]
      rw [show List.map Prod.fst (dictInsert rest k v) = dictKeys (dictInsert rest k v)
            from rfl, ih]
      constructor
      · rintro (h | (h | h))
        · exact Or.inl (Or.inl h)
        · exact Or.inl (Or.inr h)
        · exact Or.inr h
      · rintro ((h | h) | h)
        · exact Or.inl h
        · exact Or.inr (Or.inl h)
        · exact Or.inr (Or.inr h)

theorem nodup_dictKeys_dictInsert {κ α : Type} [DecidableEq κ] :
    ∀ {d : List (κ × α)} {k : κ} {v : α},
    (dictKeys d).Nodup → (dictKeys (dictInsert d k v)).Nodup := by
  intro d
  induction d with
  | nil => intro k v _; simp [dictInsert, dictKeys]
  | cons q rest ih =>
    intro k v h
    obtain ⟨k', v'⟩ := q
    simp only [dictKeys, List.map_cons, List.nodup_cons] at h
    by_cases hk : k' = k
    · simp only [dictInsert, if_pos hk, dictKeys, List.map_cons, List.nodup_cons]
      exact h
    · simp only [dictInsert, if_neg hk, dictKeys, List.map_cons, List.nodup_cons]
      refine ⟨?_, ih h.2⟩
      intro hmem
      rcases mem_dictKeys_dictInsert.mp hmem with h2 | h2
      · exact h.1 h2
      · exact hk h2

theorem mem_dictKeys_foldl_insert {κ α β : Type} [DecidableEq κ]
    (key : β → κ) (val : β → α) :
    ∀ (l : List β) (m : List (κ × α)) (i : κ),
    i ∈ dictKeys (l.foldl (fun m b => dictInsert m (key b) (val b)) m) ↔
      i ∈ dictKeys m ∨ ∃ b ∈ l, key b = i := by
  intro l
  induction l with
  | nil => intro m i; simp
  | cons b l ih =>
    intro m i
    rw [List.foldl_cons, ih, mem_dictKeys_dictInsert]
    constructor
    · rintro ((h | h) | ⟨b2, hb2, rfl⟩)
      · exact Or.inl h
      · exact Or.inr ⟨b, List.mem_cons_self _ _, h.symm⟩
      · exact Or.inr ⟨b2, List.mem_cons_of_mem _ hb2, rfl⟩
    · rintro (h | ⟨b2, hb2, rfl⟩)
      · exact Or.inl (Or.inl h)
      · rcases List.mem_cons.mp hb2 with rfl | h2
        · exact Or.inl (Or.inr rfl)
        · exact Or.inr ⟨b2, h2, rfl⟩

theorem nodup_dictKeys_foldl_insert {κ α β : Type} [DecidableEq κ]
    (key : β → κ) (val : β → α) :
    ∀ (l : List β) (m : List (κ × α)), (dictKeys m).Nodup →
    (dictKeys (l.foldl (fun m b => dictInsert m (key b) (val b)) m)).Nodup := by
  intro l
  induction l with
  | nil => intro m h; exact h
  | cons b l ih =>
    intro m h
    rw [List.foldl_cons]
    exact ih _ (nodup_dictKeys_dictInsert h)

theorem exists_getD_iff_mem_filterMap (l : List Task)
    (hall : ∀ u ∈ l, (u.id).isSome = true) (i : String) :
    (∃ t ∈ l, (Task.id t).getD "" = i) ↔ i ∈ l.filterMap Task.id := by
  constructor
  · rintro ⟨t, ht, rfl⟩
    obtain ⟨j, hj⟩ := Option.isSome_iff_exists.mp (hall t ht)
    exact List.mem_filterMap.mpr ⟨t, ht, by rw [hj]; rfl⟩
  · intro h
    obtain ⟨t, ht, hid⟩ := List.mem_filterMap.mp h
    exact ⟨t, ht, by rw [hid]; rfl⟩

theorem taskIds_mk_some (title : String) (i status : String)
    (tags : List (String × String)) (notes : List String) (children : List Task)
    (il ln : Nat) (sn : Option String) (sl : Nat) :
    taskIds (.mk title (some i) status tags notes children il ln sn sl) =
      i :: forestIds children := by
  simp [taskIds, Task.all_tasks, List.filterMap_cons, Task.id, forestIds]

theorem taskIds_mk_none (title status : String) (tags : List (String × String))
    (notes : List String) (children : List Task) (il ln : Nat)
    (sn : Option String) (sl : Nat) :
    taskIds (.mk title none status tags notes children il ln sn sl) =
      forestIds children := by
  simp [taskIds, Task.all_tasks, List.filterMap_cons, Task.id, forestIds]

theorem forestIds_cons (t : Task) (ts : List Task) :
    forestIds (t :: ts) = taskIds t ++ forestIds ts := by
  simp [forestIds, taskIds, forest_all_tasks, List.filterMap_append]

theorem sectionsIds_cons (s : SectionBlock) (ss : List SectionBlock) :
    sectionsIds (s :: ss) = forestIds s.tasks ++ sectionsIds ss := by
  simp [sectionsIds]

theorem filterMap_id_flatMap (ss : List SectionBlock) :
    (ss.flatMap (fun s => forest_all_tasks s.tasks)).filterMap Task.id =
      sectionsIds ss := by
  induction ss with
  | nil => rfl
  | cons s ss ih =>
    rw [List.flatMap_cons, List.filterMap_append, ih]
    rfl

theorem treeIds_eq_sectionsIds (t : TaskTree) : treeIds t = sectionsIds t.sections := by
  obtain ⟨fp, ss, fm⟩ := t
  exact filterMap_id_flatMap ss

theorem diskGet_diskWrite_ne (w : World) (p : Path) (c : String) (q : Path)
    (h : q ≠ p) : diskGet (diskWrite w p c) q = diskGet w q := by
  simp only [diskGet, diskWrite]
  exact dictGet_dictInsert_ne _ _ _ _ (fun he => h he.symm)

mutual

theorem backfillTask_spec (gen : Nat → String) (fuel : Nat) :
    ∀ t : Task, ∀ st : BSt, ∀ t2 : Task, ∀ st2 : BSt,
      backfillTask gen fuel t st = some (t2, st2) →
      (∀ i ∈ taskIds t, i ∈ st.used) →
      ((∃ delta, st2.used = st.used ++ delta ∧
          ∀ i ∈ delta, i ∈ taskIds t2 ∧ i ∉ st.used ∧ ∃ n, i = gen n) ∧
       (∀ i ∈ taskIds t2, i ∈ st2.used) ∧
       (∀ i ∈ taskIds t2, i ∈ st.used → i ∈ taskIds t) ∧
       (∀ u ∈ t2.all_tasks, (u.id).isSome = true) ∧
       (st.used.Nodup → (taskIds t).Nodup → st2.used.Nodup ∧ (taskIds t2).Nodup))
  | .mk title tid status tags notes children il ln sn sl => by
    intro st t2 st2 hres hE
    cases tid with
    | some i =>
      simp only [backfillTask] at hres
      split at hres
      case _ children2 st3 heq =>
        injection hres with h
        injection h with h1 h2
        subst h1; subst h2
        rw [taskIds_mk_some] at hE
        have hi : i ∈ st.used := hE i (List.mem_cons_self _ _)
        have hEc : ∀ j ∈ forestIds children, j ∈ st.used :=
          fun j hj => hE j (List.mem_cons_of_mem _ hj)
        obtain ⟨⟨delta, hd1, hd2⟩, hb, hc, hsome, hnd⟩ :=
          backfillForest_spec gen fuel children st children2 st3 heq hEc
        refine ⟨⟨delta, hd1, ?_⟩, ?_, ?_, ?_, ?_⟩
        · intro j hj
          obtain ⟨hj1, hj2, hj3⟩ := hd2 j hj
          exact ⟨by rw [taskIds_mk_some]; exact List.mem_cons_of_mem _ hj1, hj2, hj3⟩
        · intro j hj
          rw [taskIds_mk_some] at hj
          rcases List.mem_cons.mp hj with rfl | hj2
          · rw [hd1]; exact List.mem_append_left _ hi
          · exact hb j hj2
        · intro j hj hju
          rw [taskIds_mk_some] at hj ⊢
          rcases List.mem_cons.mp hj with rfl | hj2
          · exact List.mem_cons_self _ _
          · exact List.mem_cons_of_mem _ (hc j hj2 hju)
        · intro u hu
          rw [Task.all_tasks] at hu
          rcases List.mem_cons.mp hu with rfl | hu2
          · rfl
          · exact hsome u hu2
        · intro hN hT
          rw [taskIds_mk_some, List.nodup_cons] at hT
          obtain ⟨hN2, hC2⟩ := hnd hN hT.2
          refine ⟨hN2, ?_⟩
          rw [taskIds_mk_some, List.nodup_cons]
          exact ⟨fun hmem => hT.1 (hc i hmem hi), hC2⟩
      case _ => exact Option.noConfusion hres
    | none =>
      simp only [backfillTask] at hres
      split at hres
      case _ nid gi2 heqd =>
        split at hres
        case _ children2 st3 heqf =>
          injection hres with h
          injection h with h1 h2
          subst h1; subst h2
          rw [taskIds_mk_none] at hE
          have hfr := drawFresh_some_fresh gen (fun s => st.used.contains s)
            fuel st.gi nid gi2 heqd
          have hni : nid ∉ st.used := by simpa using hfr.1
          have hEc : ∀ j ∈ forestIds children,
              j ∈ (⟨st.used ++ [nid], gi2, true⟩ : BSt).used :=
            fun j hj => List.mem_append_left _ (hE j hj)
          obtain ⟨⟨delta, hd1, hd2⟩, hb, hc, hsome, hnd⟩ :=
            backfillForest_spec gen fuel children ⟨st.used ++ [nid], gi2, true⟩
              children2 st3 heqf hEc
          refine ⟨⟨nid :: delta, ?_, ?_⟩, ?_, ?_, ?_, ?_⟩
          · rw [hd1, List.append_assoc]
            rfl
          · intro j hj
            rcases List.mem_cons.mp hj with rfl | hj2
            · exact ⟨by rw [taskIds_mk_some]; exact List.mem_cons_self _ _, hni, hfr.2⟩
            · obtain ⟨hj1, hj2b, hj3⟩ := hd2 j hj2
              refine ⟨by rw [taskIds_mk_some]; exact List.mem_cons_of_mem _ hj1, ?_, hj3⟩
              exact fun hmem => hj2b (List.mem_append_left _ hmem)
          · intro j hj
            rw [taskIds_mk_some] at hj
            rcases List.mem_cons.mp hj with rfl | hj2
            · rw [hd1]
              exact List.mem_append_left _
                (List.mem_append_right _ (List.mem_singleton.mpr rfl))
            · exact hb j hj2
          · intro j hj hju
            rw [taskIds_mk_some] at hj
            rw [taskIds_mk_none]
            rcases List.mem_cons.mp hj with rfl | hj2
            · exact absurd hju hni
            · exact hc j hj2 (List.mem_append_left _ hju)
          · intro u hu
            rw [Task.all_tasks] at hu
            rcases List.mem_cons.mp hu with rfl | hu2
            · rfl
            · exact hsome u hu2
          · intro hN hT
            rw [taskIds_mk_none] at hT
            have hN2 : (st.used ++ [nid]).Nodup := by
              rw [List.nodup_append]
              exact ⟨hN, List.nodup_singleton _,
                fun a ha hb2 => hni ((List.mem_singleton.mp hb2) ▸ ha)⟩
            obtain ⟨hN3, hC2⟩ := hnd hN2 hT
            refine ⟨hN3, ?_⟩
            rw [taskIds_mk_some, List.nodup_cons]
            refine ⟨?_, hC2⟩
            intro hmem
            have hm2 := hc nid hmem
              (List.mem_append_right _ (List.mem_singleton.mpr rfl))
            exact hni (hE nid hm2)
        case _ => exact Option.noConfusion hres
      case _ => exact Option.noConfusion hres

theorem backfillForest_spec (gen : Nat → String) (fuel : Nat) :
    ∀ f : List Task, ∀ st : BSt, ∀ ts2 : List Task, ∀ st2 : BSt,
      backfillForest gen fuel f st = some (ts2, st2) →
      (∀ i ∈ forestIds f, i ∈ st.used) →
      ((∃ delta, st2.used = st.used ++ delta ∧
          ∀ i ∈ delta, i ∈ forestIds ts2 ∧ i ∉ st.used ∧ ∃ n, i = gen n) ∧
       (∀ i ∈ forestIds ts2, i ∈ st2.used) ∧
       (∀ i ∈ forestIds ts2, i ∈ st.used → i ∈ forestIds f) ∧
       (∀ u ∈ forest_all_tasks ts2, (u.id).isSome = true) ∧
       (st.used.Nodup → (forestIds f).Nodup → st2.used.Nodup ∧ (forestIds ts2).Nodup))
  | [] => by
    intro st ts2 st2 hres hE
    simp only [backfillForest] at hres
    injection hres with h
    injection h with h1 h2
    subst h1; subst h2
    refine ⟨⟨[], by rw [List.append_nil], fun i hi => absurd hi (List.not_mem_nil i)⟩,
            ?_, ?_, ?_, fun hN hT => ⟨hN, hT⟩⟩
    · intro j hj
      simp [forestIds, forest_all_tasks] at hj
    · intro j hj
      simp [forestIds, forest_all_tasks] at hj
    · intro u hu
      simp [forest_all_tasks] at hu
  | t :: ts => by
    intro st ts2 st2 hres hE
    simp only [backfillForest] at hres
    split at hres
    case _ t2 st2p heqt =>
      split at hres
      case _ ts2p st3 heqf =>
        injection hres with h
        injection h with h1 h2
        subst h1; subst h2
        rw [forestIds_cons] at hE
        have hEt : ∀ j ∈ taskIds t, j ∈ st.used :=
          fun j hj => hE j (List.mem_append_left _ hj)
        have hEts0 : ∀ j ∈ forestIds ts, j ∈ st.used :=
          fun j hj => hE j (List.mem_append_right _ hj)
        obtain ⟨⟨dt, hdt1, hdt2⟩, hbt, hct, hst, hndt⟩ :=
          backfillTask_spec gen fuel t st t2 st2p heqt hEt
        have hEts : ∀ j ∈ forestIds ts, j ∈ st2p.used := fun j hj => by
          rw [hdt1]; exact List.mem_append_left _ (hEts0 j hj)
        obtain ⟨⟨df, hdf1, hdf2⟩, hbf, hcf, hsf, hndf⟩ :=
          backfillForest_spec gen fuel ts st2p ts2p st3 heqf hEts
        refine ⟨⟨dt ++ df, ?_, ?_⟩, ?_, ?_, ?_, ?_⟩
        · rw [hdf1, hdt1, List.append_assoc]
        · intro j hj
          rcases List.mem_append.mp hj with hj2 | hj2
          · obtain ⟨h1, h2, h3⟩ := hdt2 j hj2
            exact ⟨by rw [forestIds_cons]; exact List.mem_append_left _ h1, h2, h3⟩
          · obtain ⟨h1, h2, h3⟩ := hdf2 j hj2
            refine ⟨by rw [forestIds_cons]; exact List.mem_append_right _ h1, ?_, h3⟩
            intro hmem
            exact h2 (by rw [hdt1]; exact List.mem_append_left _ hmem)
        · intro j hj
          rw [forestIds_cons] at hj
          rcases List.mem_append.mp hj with hj2 | hj2
          · rw [hdf1]; exact List.mem_append_left _ (hbt j hj2)
          · exact hbf j hj2
        · intro j hj hju
          rw [forestIds_cons] at hj ⊢
          rcases List.mem_append.mp hj with hj2 | hj2
          · exact List.mem_append_left _ (hct j hj2 hju)
          · refine List.mem_append_right _ (hcf j hj2 ?_)
            rw [hdt1]; exact List.mem_append_left _ hju
        · intro u hu
          rw [forest_all_tasks] at hu
          rcases List.mem_append.mp hu with hu2 | hu2
          · exact hst u hu2
          · exact hsf u hu2
        · intro hN hT
          rw [forestIds_cons, List.nodup_append] at hT
          obtain ⟨hT1, hT2, hT3⟩ := hT
          obtain ⟨hN2, hCt⟩ := hndt hN hT1
          obtain ⟨hN3, hCf⟩ := hndf hN2 hT2
          refine ⟨hN3, ?_⟩
          rw [forestIds_cons, List.nodup_append]
          refine ⟨hCt, hCf, ?_⟩
          intro j hjt hjf
          have hju2 : j ∈ st2p.used := hbt j hjt
          have hjts : j ∈ forestIds ts := hcf j hjf hju2
          exact hT3 (hct j hjt (hEts0 j hjts)) hjts
      case _ => exact Option.noConfusion hres
    case _ => exact Option.noConfusion hres

end

theorem backfillSections_spec (gen : Nat → String) (fuel : Nat) :
    ∀ (ss : List SectionBlock) (st : BSt) (ss2 : List SectionBlock) (st2 : BSt),
      backfillSections gen fuel ss st = some (ss2, st2) →
      (∀ i ∈ sectionsIds ss, i ∈ st.used) →
      ((∃ delta, st2.used = st.used ++ delta ∧
          ∀ i ∈ delta, i ∈ sectionsIds ss2 ∧ i ∉ st.used ∧ ∃ n, i = gen n) ∧
       (∀ i ∈ sectionsIds ss2, i ∈ st2.used) ∧
       (∀ i ∈ sectionsIds ss2, i ∈ st.used → i ∈ sectionsIds ss) ∧
       (∀ s2 ∈ ss2, ∀ u ∈ forest_all_tasks s2.tasks, (u.id).isSome = true) ∧
       (st.used.Nodup → (sectionsIds ss).Nodup →
         st2.used.Nodup ∧ (sectionsIds ss2).Nodup)) := by
  intro ss
  induction ss with
  | nil =>
    intro st ss2 st2 hres hE
    simp only [backfillSections] at hres
    injection hres with h
    injection h with h1 h2
    subst h1; subst h2
    refine ⟨⟨[], by rw [List.append_nil], fun i hi => absurd hi (List.not_mem_nil i)⟩,
            ?_, ?_, ?_, fun hN hT => ⟨hN, hT⟩⟩
    · intro j hj
      simp [sectionsIds] at hj
    · intro j hj
      simp [sectionsIds] at hj
    · intro s2 hs2
      simp at hs2
  | cons s ss ih =>
    intro st ss2 st2 hres hE
    simp only [backfillSections] at hres
    split at hres
    case _ ts2 st2p heqt =>
      split at hres
      case _ ss2p st3 heqf =>
        injection hres with h
        injection h with h1 h2
        subst h1; subst h2
        rw [sectionsIds_cons] at hE
        have hEt : ∀ j ∈ forestIds s.tasks, j ∈ st.used :=
          fun j hj => hE j (List.mem_append_left _ hj)
        have hEts0 : ∀ j ∈ sectionsIds ss, j ∈ st.used :=
          fun j hj => hE j (List.mem_append_right _ hj)
        obtain ⟨⟨dt, hdt1, hdt2⟩, hbt, hct, hst, hndt⟩ :=
          backfillForest_spec gen fuel s.tasks st ts2 st2p heqt hEt
        have hEts : ∀ j ∈ sectionsIds ss, j ∈ st2p.used := fun j hj => by
          rw [hdt1]; exact List.mem_append_left _ (hEts0 j hj)
        obtain ⟨⟨df, hdf1, hdf2⟩, hbf, hcf, hsf, hndf⟩ :=
          ih st2p ss2p st3 heqf hEts
        refine ⟨⟨dt ++ df, ?_, ?_⟩, ?_, ?_, ?_, ?_⟩
        · rw [hdf1, hdt1, List.append_assoc]
        · intro j hj
          rcases List.mem_append.mp hj with hj2 | hj2
          · obtain ⟨h1, h2, h3⟩ := hdt2 j hj2
            exact ⟨by rw [sectionsIds_cons]; exact List.mem_append_left _ h1, h2, h3⟩
          · obtain ⟨h1, h2, h3⟩ := hdf2 j hj2
            refine ⟨by rw [sectionsIds_cons]; exact List.mem_append_right _ h1, ?_, h3⟩
            intro hmem
            exact h2 (by rw [hdt1]; exact List.mem_append_left _ hmem)
        · intro j hj
          rw [sectionsIds_cons] at hj
          rcases List.mem_append.mp hj with hj2 | hj2
          · rw [hdf1]; exact List.mem_append_left _ (hbt j hj2)
          · exact hbf j hj2
        · intro j hj hju
          rw [sectionsIds_cons] at hj ⊢
          rcases List.mem_append.mp hj with hj2 | hj2
          · exact List.mem_append_left _ (hct j hj2 hju)
          · refine List.mem_append_right _ (hcf j hj2 ?_)
            rw [hdt1]; exact List.mem_append_left _ hju
        · intro s2 hs2
          rcases List.mem_cons.mp hs2 with rfl | hs2b
          · intro u hu
            exact hst u hu
          · exact hsf s2 hs2b
        · intro hN hT
          rw [sectionsIds_cons, List.nodup_append] at hT
          obtain ⟨hT1, hT2, hT3⟩ := hT
          obtain ⟨hN2, hCt⟩ := hndt hN hT1
          obtain ⟨hN3, hCf⟩ := hndf hN2 hT2
          refine ⟨hN3, ?_⟩
          rw [sectionsIds_cons, List.nodup_append]
          refine ⟨hCt, hCf, ?_⟩
          intro j hjt hjf
          have hju2 : j ∈ st2p.used := hbt j hjt
          have hjts : j ∈ sectionsIds ss := hcf j hjf hju2
          exact hT3 (hct j hjt (hEts0 j hjts)) hjts
      case _ => exact Option.noConfusion hres
    case _ => exact Option.noConfusion hres

theorem upsert_fresh_spec (st : CacheState) (w : World) (cached : CachedFile)
    (st2 : CacheState) (w2 : World)
    (hres : upsert_file st w cached = some (st2, w2))
    (hfresh : dictGet st.files cached.filePath = none) :
    w2.gen = w.gen ∧
    (∀ q, q ≠ cached.filePath → diskGet w2 q = diskGet w q) ∧
    ∃ ids2 : List String,
      reachableIds st2 = reachableIds st ++ ids2 ∧
      (∀ i, i ∈ dictKeys st2.tasksById ↔ i ∈ dictKeys st.tasksById ∨ i ∈ ids2) ∧
      ((dictKeys st.tasksById).Nodup → (dictKeys st2.tasksById).Nodup) ∧
      (∀ q, q ≠ cached.filePath → dictGet st2.files q = dictGet st.files q) ∧
      (∀ i ∈ ids2, i ∈ treeIds cached.tree ∨
        ((∃ n, i = w.gen n) ∧ i ∉ dictKeys st.tasksById ++ treeIds cached.tree)) ∧
      (∀ i ∈ ids2, i ∈ dictKeys st.tasksById ++ treeIds cached.tree →
        i ∈ treeIds cached.tree) ∧
      ((dictKeys st.tasksById ++ treeIds cached.tree).Nodup → ids2.Nodup) := by
  simp only [upsert_file, hfresh] at hres
  split at hres
  case _ => exact Option.noConfusion hres
  case _ sections2 bst heq =>
    have hE : ∀ i ∈ sectionsIds cached.tree.sections,
        i ∈ (⟨dictKeys st.tasksById ++ (cached.tree.all_tasks).filterMap Task.id,
              w.genIdx, false⟩ : BSt).used := by
      intro i hi
      refine List.mem_append_right _ ?_
      have hi2 : i ∈ treeIds cached.tree := by
        rw [treeIds_eq_sectionsIds]; exact hi
      exact hi2
    obtain ⟨⟨delta, hd1, hd2⟩, hb, hc, hsome, hnd⟩ :=
      backfillSections_spec w.gen w.idFuel cached.tree.sections _ sections2 bst heq hE
    injection hres with h
    injection h with h1 h2
    subst h1; subst h2
    have htree2 : treeIds (⟨cached.tree.filePath, sections2,
        cached.tree.frontmatterLines⟩ : TaskTree) = sectionsIds sections2 :=
      treeIds_eq_sectionsIds _
    have hsome2 : ∀ u ∈ TaskTree.all_tasks
        (⟨cached.tree.filePath, sections2, cached.tree.frontmatterLines⟩ : TaskTree),
        (u.id).isSome = true := by
      intro u hu
      obtain ⟨s2, hs2, hu2⟩ := List.mem_flatMap.mp hu
      exact hsome s2 hs2 u hu2
    refine ⟨?_, ?_, sectionsIds sections2, ?_, ?_, ?_, ?_, ?_, ?_, ?_⟩
    · by_cases hA : bst.assigned = true
      · rw [if_pos hA]
        rfl
      · rw [if_neg hA]
    · intro q hq
      by_cases hA : bst.assigned = true
      · rw [if_pos hA]
        exact diskGet_diskWrite_ne _ _ _ _ hq
      · rw [if_neg hA]
        rfl
    · show (dictInsert st.files cached.filePath _).flatMap _ = _
      rw [dictInsert_eq_append _ hfresh, List.flatMap_append]
      congr 1
      show treeIds (⟨cached.tree.filePath, sections2,
        cached.tree.frontmatterLines⟩ : TaskTree) ++ [] = sectionsIds sections2
      rw [List.append_nil, htree2]
    · intro i
      have h41 := mem_dictKeys_foldl_insert (fun t : Task => (t.id).getD "")
        (fun t : Task => (t, cached.filePath))
        (TaskTree.all_tasks ⟨cached.tree.filePath, sections2,
          cached.tree.frontmatterLines⟩) st.tasksById i
      have h42 := exists_getD_iff_mem_filterMap _ hsome2 i
      constructor
      · intro hm
        rcases h41.mp hm with hm2 | hm2
        · exact Or.inl hm2
        · right
          have hm3 : i ∈ treeIds (⟨cached.tree.filePath, sections2,
              cached.tree.frontmatterLines⟩ : TaskTree) := h42.mp hm2
          rw [htree2] at hm3
          exact hm3
      · intro hm
        refine h41.mpr ?_
        rcases hm with hm2 | hm2
        · exact Or.inl hm2
        · right
          refine h42.mpr ?_
          have hm3 : i ∈ treeIds (⟨cached.tree.filePath, sections2,
              cached.tree.frontmatterLines⟩ : TaskTree) := by
            rw [htree2]; exact hm2
          exact hm3
    · intro hN
      exact nodup_dictKeys_foldl_insert (fun t : Task => (t.id).getD "")
        (fun t : Task => (t, cached.filePath)) _ _ hN
    · intro q hq
      exact dictGet_dictInsert_ne _ _ _ _ (Ne.symm hq)
    · intro i hi
      have hiu : i ∈ bst.used := hb i hi
      rw [hd1] at hiu
      rcases List.mem_append.mp hiu with hm | hm
      · left
        have := hc i hi hm
        rw [treeIds_eq_sectionsIds]
        exact this
      · obtain ⟨_, hni, hgen⟩ := hd2 i hm
        exact Or.inr ⟨hgen, hni⟩
    · intro i hi hmem
      have hiu : i ∈ bst.used := hb i hi
      rw [hd1] at hiu
      rcases List.mem_append.mp hiu with hm | hm
      · have := hc i hi hm
        rw [treeIds_eq_sectionsIds]
        exact this
      · obtain ⟨_, hni, _⟩ := hd2 i hm
        exact absurd hmem hni
    · intro hN
      have hT : (sectionsIds cached.tree.sections).Nodup := by
        have := (List.nodup_append.mp hN).2.1
        rw [treeIds_eq_sectionsIds] at this
        exact this
      exact (hnd hN hT).2

theorem loadFold_inv (w0 : World) :
    ∀ (todo : List Path) (st : CacheState) (w : World) (E : List String)
      (res : CacheState × World),
    loadFold st w todo = some res →
    w.gen = w0.gen →
    (∀ p ∈ todo, diskGet w p = diskGet w0 p) →
    (E ++ todo.flatMap (explicitOf w0)).Nodup →
    (∀ n, w0.gen n ∉ E ++ todo.flatMap (explicitOf w0)) →
    (∀ p ∈ todo, dictGet st.files p = none) →
    todo.Nodup →
    (reachableIds st).Nodup →
    (∀ i, i ∈ dictKeys st.tasksById ↔ i ∈ reachableIds st) →
    (dictKeys st.tasksById).Nodup →
    (∀ i ∈ reachableIds st, i ∈ E ∨ ∃ n, i = w0.gen n) →
    (reachableIds res.1).Nodup := by
  intro todo
  induction todo with
  | nil =>
    intro st w E res hres _ _ _ _ _ _ hI1 _ _ _
    simp only [loadFold] at hres
    injection hres with h
    subst h
    exact hI1
  | cons p ps ih =>
    intro st w E res hres hgen hdisk hNd hG hfiles hpnd hI1 hI2 hI3 hI4
    have hpnotin : p ∉ ps := (List.nodup_cons.mp hpnd).1
    simp only [loadFold] at hres
    split at hres
    case _ st2 w2 hload =>
      cases hdf : diskGet w p with
      | none =>
        simp only [load_file, hdf] at hload
        injection hload with h
        injection h with h1 h2
        subst h1; subst h2
        have h0 : diskGet w0 p = none := by
          rw [← hdisk p (List.mem_cons_self _ _)]; exact hdf
        have hof : explicitOf w0 p = [] := by simp [explicitOf, h0]
        rw [List.flatMap_cons, hof, List.nil_append] at hNd hG
        exact ih st w E res hres hgen (fun q hq => hdisk q (List.mem_cons_of_mem _ hq))
          hNd hG (fun q hq => hfiles q (List.mem_cons_of_mem _ hq))
          (List.nodup_cons.mp hpnd).2 hI1 hI2 hI3 hI4
      | some df =>
        simp only [load_file, hdf] at hload
        have hfr : dictGet st.files p = none := hfiles p (List.mem_cons_self _ _)
        obtain ⟨hg2, hdisk2, ids2, hreach, hkeys, hkeysnd, hfiles2, hacct1, hacct2,
            hacct3⟩ :=
          upsert_fresh_spec st w ⟨p, parse_content df.content p, df.mtime⟩ st2 w2
            hload hfr
        have h0 : diskGet w0 p = some df := by
          rw [← hdisk p (List.mem_cons_self _ _)]; exact hdf
        have hof : explicitOf w0 p = treeIds (parse_content df.content p) := by
          simp [explicitOf, h0]
        rw [List.flatMap_cons] at hNd hG
        have hEdisj : ∀ i ∈ E, i ∉ explicitOf w0 p := by
          intro i hiE hiX
          exact (List.nodup_append.mp hNd).2.2 hiE (List.mem_append_left _ hiX)
        have hXnd : (explicitOf w0 p).Nodup :=
          (List.nodup_append.mp (List.nodup_append.mp hNd).2.1).1
        have hGX : ∀ n, w0.gen n ∉ explicitOf w0 p := by
          intro n hn
          exact hG n (List.mem_append_right _ (List.mem_append_left _ hn))
        have hkeysdisj : ∀ i ∈ dictKeys st.tasksById, i ∉ explicitOf w0 p := by
          intro i hik hiX
          rcases hI4 i ((hI2 i).mp hik) with hiE | ⟨n, hn⟩
          · exact hEdisj i hiE hiX
          · exact hGX n (hn ▸ hiX)
        have hused0nd : (dictKeys st.tasksById ++
            treeIds (parse_content df.content p)).Nodup := by
          rw [List.nodup_append]
          exact ⟨hI3, hof ▸ hXnd, fun i hik hiX => hkeysdisj i hik (hof ▸ hiX)⟩
        have hids2X : ∀ i ∈ ids2, i ∈ dictKeys st.tasksById ++
            treeIds (parse_content df.content p) →
            i ∈ treeIds (parse_content df.content p) := hacct2
        have hI1' : (reachableIds st2).Nodup := by
          rw [hreach, List.nodup_append]
          refine ⟨hI1, hacct3 hused0nd, ?_⟩
          intro i hir hii
          have hiX : i ∈ treeIds (parse_content df.content p) := by
            refine hids2X i hii (List.mem_append_left _ ((hI2 i).mpr hir))
          rcases hI4 i hir with hiE | ⟨n, hn⟩
          · exact hEdisj i hiE (hof ▸ hiX)
          · exact hGX n (hn ▸ (hof ▸ hiX))
        have hI2' : ∀ i, i ∈ dictKeys st2.tasksById ↔ i ∈ reachableIds st2 := by
          intro i
          rw [hkeys i, hI2 i, hreach, List.mem_append]
        have hI4' : ∀ i ∈ reachableIds st2,
            i ∈ E ++ explicitOf w0 p ∨ ∃ n, i = w0.gen n := by
          intro i hir
          rw [hreach] at hir
          rcases List.mem_append.mp hir with hir2 | hir2
          · rcases hI4 i hir2 with hiE | hgn
            · exact Or.inl (List.mem_append_left _ hiE)
            · exact Or.inr hgn
          · rcases hacct1 i hir2 with hiX | ⟨⟨n, hn⟩, _⟩
            · exact Or.inl (List.mem_append_right _ (hof ▸ hiX))
            · exact Or.inr ⟨n, by rw [hn, hgen]⟩
        refine ih st2 w2 (E ++ explicitOf w0 p) res hres (hg2.trans hgen) ?_ ?_ ?_
          ?_ (List.nodup_cons.mp hpnd).2 hI1' hI2' (hkeysnd hI3) hI4'
        · intro q hq
          rw [hdisk2 q (fun he => hpnotin ((show q = p from he) ▸ hq))]
          exact hdisk q (List.mem_cons_of_mem _ hq)
        · rw [List.append_assoc]
          exact hNd
        · intro n
          rw [List.append_assoc]
          exact hG n
        · intro q hq
          rw [hfiles2 q (fun he => hpnotin ((show q = p from he) ▸ hq))]
          exact hfiles q (List.mem_cons_of_mem _ hq)
    case _ => exact Option.noConfusion hres

/-- C1 counterexample: two files on disk each declare the same explicit id
"aaaaaa"; after a full scan both tasks are cached and reachable from the
file map with the same id, so the claimed invariant fails, and the id index
silently resolves the shared id to the later file's task. -/
theorem C1_counterexample :
    reachableIds c1Init.1 = ["aaaaaa", "aaaaaa"] ∧
    ¬ (reachableIds c1Init.1).Nodup ∧
    (reachableTasks c1Init.1).map Task.title = ["A", "B"] ∧
    (get_task c1Init.1 "aaaaaa").map (fun r => r.1.title) = some "B" := by
  refine ⟨by decide, ?_, by decide, by decide⟩
  decide

/-- C1 (amended): after a full scan, no two tasks anywhere in the cache
share an id — including back-filled ids — PROVIDED the explicit ids already
present in the walked files are globally distinct and the id generator
never emits one of them; duplicate explicit ids across (or within) files
are neither detected nor repaired, so without that hypothesis the
invariant fails. -/
theorem C1_init_ids_unique (root : Path) (exclude : List String) (w : World)
    (st2 : CacheState) (w2 : World)
    (hdistinct : (walkedExplicitIds w root exclude).Nodup)
    (hgen : ∀ n, w.gen n ∉ walkedExplicitIds w root exclude)
    (hdisk : (dictKeys w.disk).Nodup)
    (hres : initVault root exclude w = some (st2, w2)) :
    idsUnique st2 := by
  simp only [initVault] at hres
  split at hres
  case _ st1 w1 heq =>
    injection hres with h
    injection h with h1 h2
    subst h1; subst h2
    show (reachableIds _).Nodup
    exact loadFold_inv w (walk_task_files w root exclude)
      ⟨[], [], [], [], root, exclude⟩ w [] (st1, w1) heq rfl (fun p _ => rfl)
      hdistinct hgen (fun p _ => rfl) (List.Nodup.filter _ hdisk)
      List.nodup_nil (fun i => Iff.rfl) List.nodup_nil
      (fun i hi => absurd hi (List.not_mem_nil i))
  case _ => exact Option.noConfusion hres

/-- C1_init_ids_unique evaluated on a concrete two-file vault with distinct
explicit ids, a missing child id that gets back-filled, and a
non-colliding id oracle. -/
theorem C1_witness : idsUnique c1GoodInit.1 :=
  C1_init_ids_unique ["v"] [] c1Good c1GoodInit.1 c1GoodInit.2
    (by decide)
    (fun n => by
      show "zzzzzz" ∉ walkedExplicitIds c1Good ["v"] []
      decide)
    (by decide)
    (by rfl)

end VaultMCP
